import Mathlib

/-!
# Verification of the SimpleSQL query/notification gateway (`src/base.py`)

A shallow embedding of the parts of `src/base.py` that carry the spec's
invariants, with theorems settling each claim:

* the result shaper inside `SimpleSQL._query` (lines 211-224);
* the placeholder compiler `Query._process_query` (lines 39-51), including a
  model of Python's `string.Formatter.parse` and `str.replace`;
* the query registry update in `SimpleSQL.include_queries` (line 150);
* the soft-failing executors `SimpleSQL._execute` / `SimpleSQL._query` and the
  prepare loop `SimpleSQL._prepare` driven by `SimpleSQL.start`;
* the notification loop `SimpleSQL._listen` (lines 236-270) with its
  subscribe / dispatch / guaranteed-cleanup structure;
* the listener-list sharing between `SQLRouter` and `SimpleSQL`
  (`include_router` / `add_listener`), modelled with an explicit heap so that
  Python list aliasing is visible;
* the arity of `Query.execute` as called by the `SimpleSQL.execute` wrapper.

Python values flowing through the result shaper and the notification payloads
are modelled by the inductive `PyVal`; Python `dict`s keyed by strings are
modelled as association lists with insert-or-overwrite assignment.
-/

set_option autoImplicit false

namespace SimpleSQL

/-- Python values as they occur in this library: `None`, booleans, integers,
strings, lists, and string-keyed dicts (kept in insertion order, as Python
dicts are). -/
inductive PyVal where
  | none : PyVal
  | bool : Bool → PyVal
  | int : Int → PyVal
  | str : String → PyVal
  | list : List PyVal → PyVal
  | dict : List (String × PyVal) → PyVal
deriving Repr

/-- Lookup in a Python dict modelled as an association list
(first binding of the key; keys are unique by construction of `pyDictSet`). -/
def pyDictGet? {α : Type} (m : List (String × α)) (k : String) : Option α :=
  match m with
  | [] => Option.none
  | (k', v) :: rest => if k' = k then some v else pyDictGet? rest k

/-- Python dict item assignment `m[k] = v`: overwrite in place if the key is
present (Python preserves the key's position), otherwise append. -/
def pyDictSet {α : Type} (m : List (String × α)) (k : String) (v : α) :
    List (String × α) :=
  match m with
  | [] => [(k, v)]
  | (k', v') :: rest =>
    if k' = k then (k', v) :: rest else (k', v') :: pyDictSet rest k v

/-- Membership test `k in m` for the dict model. -/
def pyDictMem {α : Type} (m : List (String × α)) (k : String) : Bool :=
  match m with
  | [] => false
  | (k', _) :: rest => k' = k || pyDictMem rest k

/-! ## The result shaper (`SimpleSQL._query`, lines 211-224)

```python
output = None
if cursor.description:
    rows = await cursor.fetchall()
    if len(rows) == 1:
        if len(cursor.description) == 1:
            output = rows[0][0]
        else:
            output = {column.name: rows[0][index] for index, column in enumerate(cursor.description)}
    else:
        if len(cursor.description) == 1:
            output = [row[0] for row in rows]
        else:
            output = [{column.name: row[index] for index, column in enumerate(cursor.description)} for row in rows]
```

`description` is modelled by its list of column names.  Row indexing `row[index]`
is modelled by `List.getD` (psycopg rows always have one entry per column, so
the default is never consulted on rectangular inputs). -/

/-- The row-to-dict comprehension
`{column.name: row[index] for index, column in enumerate(description)}`. -/
def rowToDict (description : List String) (row : List PyVal) :
    List (String × PyVal) :=
  description.enum.map fun ic => (ic.2, row.getD ic.1 PyVal.none)

/-- The shaping logic of `SimpleSQL._query` after a successful fetch. -/
def shapeOutput (description : List String) (rows : List (List PyVal)) : PyVal :=
  if description.isEmpty then PyVal.none
  else if rows.length = 1 then
    if description.length = 1 then (rows.headD []).headD PyVal.none
    else PyVal.dict (rowToDict description (rows.headD []))
  else if description.length = 1 then
    PyVal.list (rows.map fun row => row.headD PyVal.none)
  else
    PyVal.list (rows.map fun row => PyVal.dict (rowToDict description row))

/-! ## The query registry (`SimpleSQL.include_queries`, line 150)

The only code that stores a query under a name is the dict item assignment
`self.queries[identifier] = Query(self, name.upper(), ...)`.  The surrounding
directory walk is file-system glue; the registry update itself is modelled on
the dict model, keyed by the derived identifier and holding the raw query
text. -/

/-- The registry update of `include_queries`:
`self.queries[identifier] = Query(...)`, a plain dict assignment with no
presence check. -/
def includeQueryEntry (queries : List (String × String)) (identifier : String)
    (raw : String) : List (String × String) :=
  pyDictSet queries identifier raw

/-! ## Driver interaction and the two executors

`SimpleSQL._execute` and `SimpleSQL._query` wrap a driver call in
`try/except Error`.  The driver's behaviour is an explicit input
(`DriverOutcome` / `QueryOutcome`), the database commands performed are
recorded as a trace, and a Python exception escaping to the caller is an
`Except.error`. -/

/-- Exceptions that can cross function boundaries in the modelled code. -/
inductive PyException where
  | psycopgError : PyException
  | jsonDecodeError : PyException
  | typeError : PyException
  | other : Nat → PyException
deriving Repr, DecidableEq

/-- Whether the driver raises `psycopg.errors.Error` for a statement. -/
inductive DriverOutcome where
  | ok : DriverOutcome
  | error : DriverOutcome
deriving Repr, DecidableEq

/-- Observable database commands. -/
inductive DBAction where
  | execute : String → DBAction
  | query : String → List (String × PyVal) → DBAction
  | rollback : DBAction
  | commit : DBAction
  | closeCursor : DBAction
deriving Repr

/-- `self.connection.execute(query)`: performs the statement and either
returns normally or raises the psycopg `Error`. -/
def connectionExecute (query : String) (outcome : DriverOutcome) :
    List DBAction × Except PyException Unit :=
  match outcome with
  | DriverOutcome.ok => ([DBAction.execute query], Except.ok ())
  | DriverOutcome.error => ([DBAction.execute query], Except.error PyException.psycopgError)

/-- `SimpleSQL._execute` (lines 185-198): try the statement; on psycopg
`Error`, roll back and return `False`; otherwise commit, close the cursor and
return `True`.  Only `Error` is caught; any other exception would
propagate. -/
def executeStatement (query : String) (outcome : DriverOutcome) :
    List DBAction × Except PyException Bool :=
  match connectionExecute query outcome with
  | (tr, Except.error PyException.psycopgError) =>
    (tr ++ [DBAction.rollback], Except.ok false)
  | (tr, Except.error e) => (tr, Except.error e)
  | (tr, Except.ok _) =>
    (tr ++ [DBAction.commit, DBAction.closeCursor], Except.ok true)

/-- `SimpleSQL._prepare` (lines 231-234) as driven by `start`: run `_execute`
on every registered query's `prepare_query` in order, ignoring the returned
boolean; an exception escaping `_execute` would abort the loop and propagate
out of `start`. -/
def prepareAll (queries : List (String × DriverOutcome)) :
    List DBAction × Except PyException Unit :=
  match queries with
  | [] => ([], Except.ok ())
  | (q, o) :: rest =>
    match executeStatement q o with
    | (tr, Except.ok _) =>
      let (tr2, r) := prepareAll rest
      (tr ++ tr2, r)
    | (tr, Except.error e) => (tr, Except.error e)

/-- The call-time binding of `Query.execute` (line 63):
`{parameter: data.get(parameter, None) for parameter in self.parameters}`. -/
def bindArguments (parameters : List String) (data : List (String × PyVal)) :
    List (String × PyVal) :=
  parameters.map fun p => (p, (pyDictGet? data p).getD PyVal.none)

/-- Driver behaviour for `cursor.execute` inside `_query`: raise, or succeed
with a result set (`cursor.description` column names and fetched rows; an
empty description models a statement with no result set). -/
inductive QueryOutcome where
  | error : QueryOutcome
  | ok : List String → List (List PyVal) → QueryOutcome

/-- `SimpleSQL._query` (lines 200-229): try the statement with its argument
map; on psycopg `Error`, roll back and return `None`; otherwise shape the
fetched rows, commit, close the cursor and return the shaped output. -/
def queryStatement (text : String) (args : List (String × PyVal))
    (outcome : QueryOutcome) : List DBAction × Except PyException PyVal :=
  match outcome with
  | QueryOutcome.error =>
    ([DBAction.query text args, DBAction.rollback], Except.ok PyVal.none)
  | QueryOutcome.ok description rows =>
    ([DBAction.query text args, DBAction.commit, DBAction.closeCursor],
      Except.ok (shapeOutput description rows))

/-- `Query.execute` (lines 59-63): build the argument map from `data` by
permissive binding, then run `_query` on the `EXECUTE` text. -/
def queryExecuteRun (parameters : List String) (text : String)
    (data : List (String × PyVal)) (outcome : QueryOutcome) :
    List DBAction × Except PyException PyVal :=
  queryStatement text (bindArguments parameters data) outcome

/-! ## The `SimpleSQL.execute` wrapper (lines 178-179)

```python
async def execute(self, query: Query, data: dict[str, object] = {}):
    await query.execute(self, data)
```

`Query.execute` is `async def execute(self, data={})`: the bound method
accepts at most one positional argument.  Calls are modelled with an explicit
positional-argument list; Python raises `TypeError` when more positional
arguments are passed than the signature has parameters. -/

/-- A positional argument in the modelled calls: the client instance or a
data dict. -/
inductive PyArg where
  | database : PyArg
  | data : List (String × PyVal) → PyArg

/-- Invoking the bound method `Query.execute` with an explicit list of
positional arguments.  Signature `execute(self, data={})`: zero arguments
bind the default `{}`, one data argument binds `data`, anything else is a
`TypeError`; passing the client instance where the dict is expected would
fail at the `data.get` attribute lookup, modelled as a propagated
exception. -/
def queryExecuteCall (parameters : List String) (text : String)
    (outcome : QueryOutcome) (args : List PyArg) :
    List DBAction × Except PyException PyVal :=
  match args with
  | [] => queryExecuteRun parameters text [] outcome
  | [PyArg.data d] => queryExecuteRun parameters text d outcome
  | [PyArg.database] => ([], Except.error (PyException.other 0))
  | _ => ([], Except.error PyException.typeError)

/-- The wrapper `SimpleSQL.execute`: `await query.execute(self, data)` passes
two positional arguments. -/
def simpleSQLExecute (parameters : List String) (text : String)
    (outcome : QueryOutcome) (data : List (String × PyVal)) :
    List DBAction × Except PyException PyVal :=
  queryExecuteCall parameters text outcome [PyArg.database, PyArg.data data]

/-! ## The notification loop (`SimpleSQL._listen`, lines 236-270)

```python
cursor = self.connection.cursor()
for event in self.listeners:
    await cursor.execute(f'LISTEN "{event}";')
await self.connection.commit()
try:
    while await sleep(0.1, True):
        async for notify in self.connection.notifies():
            for listener in self.listeners.get(notify.channel, []):
                try:
                    await listener(loads(notify.payload))
                except JSONDecodeError:
                    await listener(notify.payload)
            for pipe in self.pipes:
                await pipe(notify.channel, notify.payload)
finally:
    for event in self.listeners:
        await cursor.execute(f'UNLISTEN "{event}";')
    await self.connection.commit()
    await cursor.close()
```

The incoming stream is modelled as a finite list of `(channel, payload)`
notifications; a callback is a behaviour function that either returns or
raises a `PyException`.  The loop runs until the stream ends or an uncaught
exception escapes the dispatch body; either way the `finally` block runs. -/

/-- `json.loads`, modelled on the JSON fragment this development exercises:
integer literals, escape-free string literals, and flat objects with string
keys and integer or string values.  `Option.none` models a raised
`JSONDecodeError`. -/
def parseIntLit (cs : List Char) : Option (Int × List Char) :=
  match cs with
  | '-' :: rest =>
    let ds := rest.takeWhile Char.isDigit
    if ds.isEmpty then Option.none
    else some (-(ds.foldl (fun a c => 10 * a + (c.toNat - 48)) 0 : Int),
      rest.dropWhile Char.isDigit)
  | _ =>
    let ds := cs.takeWhile Char.isDigit
    if ds.isEmpty then Option.none
    else some ((ds.foldl (fun a c => 10 * a + (c.toNat - 48)) 0 : Int),
      cs.dropWhile Char.isDigit)

/-- A JSON string literal (no escape sequences). -/
def parseStrLit (cs : List Char) : Option (String × List Char) :=
  match cs with
  | '"' :: rest =>
    match rest.dropWhile (· ≠ '"') with
    | '"' :: r => some (String.mk (rest.takeWhile (· ≠ '"')), r)
    | _ => Option.none
  | _ => Option.none

/-- A scalar JSON value: a string or an integer. -/
def parseScalar (cs : List Char) : Option (PyVal × List Char) :=
  match parseStrLit cs with
  | some (s, r) => some (PyVal.str s, r)
  | Option.none =>
    match parseIntLit cs with
    | some (n, r) => some (PyVal.int n, r)
    | Option.none => Option.none

/-- The `"key": scalar` entries of a flat JSON object, after the opening
brace; consumes the closing brace. -/
def parseEntries : Nat → List Char → Option (List (String × PyVal) × List Char)
  | 0, _ => Option.none
  | fuel + 1, cs => do
    let (k, r1) ← parseStrLit cs
    match r1 with
    | ':' :: r2 =>
      let (v, r3) ← parseScalar r2
      match r3 with
      | ',' :: r4 =>
        let (es, r5) ← parseEntries fuel r4
        some ((k, v) :: es, r5)
      | '}' :: r4 => some ([(k, v)], r4)
      | _ => Option.none
    | _ => Option.none

/-- `json.loads(payload)` on the modelled fragment; the whole payload must be
consumed. -/
def loads (payload : String) : Option PyVal :=
  match payload.data with
  | '{' :: '}' :: [] => some (PyVal.dict [])
  | '{' :: rest =>
    match parseEntries rest.length rest with
    | some (es, []) => some (PyVal.dict es)
    | _ => Option.none
  | cs =>
    match parseScalar cs with
    | some (v, []) => some v
    | _ => Option.none

/-- What a channel listener is handed: `loads(payload)` when the payload is
valid JSON, the raw text otherwise. -/
def decodedPayload (payload : String) : PyVal :=
  match loads payload with
  | some v => v
  | Option.none => PyVal.str payload

/-- A channel listener callback: an identity for the trace and a behaviour
that either returns (`Option.none`) or raises the given exception. -/
structure Listener where
  id : Nat
  behave : PyVal → Option PyException

/-- A pipe callback, invoked with `(channel, payload)`. -/
structure PipeListener where
  id : Nat
  behave : String → PyVal → Option PyException

/-- Observable events of the notification loop. -/
inductive LEvent where
  | listenCmd : String → LEvent
  | unlistenCmd : String → LEvent
  | commitTx : LEvent
  | closeCursor : LEvent
  | invoke : Nat → PyVal → LEvent
  | invokePipe : Nat → String → PyVal → LEvent

/-- One listener invocation with its `try/except JSONDecodeError` fallback:
`loads` failing, or the listener itself raising `JSONDecodeError`, re-invokes
the listener with the raw payload; any other exception propagates. -/
def callListener (l : Listener) (payload : String) :
    List LEvent × Option PyException :=
  match loads payload with
  | some v =>
    match l.behave v with
    | Option.none => ([LEvent.invoke l.id v], Option.none)
    | some PyException.jsonDecodeError =>
      ([LEvent.invoke l.id v, LEvent.invoke l.id (PyVal.str payload)],
        l.behave (PyVal.str payload))
    | some e => ([LEvent.invoke l.id v], some e)
  | Option.none =>
    ([LEvent.invoke l.id (PyVal.str payload)], l.behave (PyVal.str payload))

/-- The `for listener in self.listeners.get(channel, [])` loop; a propagated
exception aborts the remaining listeners. -/
def runListeners (payload : String) :
    List Listener → List LEvent × Option PyException
  | [] => ([], Option.none)
  | l :: rest =>
    match callListener l payload with
    | (tr, some e) => (tr, some e)
    | (tr, Option.none) =>
      let (tr2, r) := runListeners payload rest
      (tr ++ tr2, r)

/-- The `for pipe in self.pipes` loop: each pipe receives the channel name and
the raw payload; there is no `try` here, so any exception aborts the rest. -/
def runPipes (channel payload : String) :
    List PipeListener → List LEvent × Option PyException
  | [] => ([], Option.none)
  | p :: rest =>
    match p.behave channel (PyVal.str payload) with
    | some e => ([LEvent.invokePipe p.id channel (PyVal.str payload)], some e)
    | Option.none =>
      let (tr, r) := runPipes channel payload rest
      (LEvent.invokePipe p.id channel (PyVal.str payload) :: tr, r)

/-- Dispatch of one notification: channel listeners first, then pipes. -/
def dispatchOne (listeners : List (String × List Listener))
    (pipes : List PipeListener) (channel payload : String) :
    List LEvent × Option PyException :=
  match runListeners payload ((pyDictGet? listeners channel).getD []) with
  | (tr, some e) => (tr, some e)
  | (tr, Option.none) =>
    let (tr2, r) := runPipes channel payload pipes
    (tr ++ tr2, r)

/-- The dispatch loop over the incoming stream; an escaped exception stops
further iteration. -/
def runLoop (listeners : List (String × List Listener))
    (pipes : List PipeListener) :
    List (String × String) → List LEvent × Option PyException
  | [] => ([], Option.none)
  | (channel, payload) :: rest =>
    match dispatchOne listeners pipes channel payload with
    | (tr, some e) => (tr, some e)
    | (tr, Option.none) =>
      let (tr2, r) := runLoop listeners pipes rest
      (tr ++ tr2, r)

/-- `SimpleSQL._listen`: subscribe to every listener channel and commit, run
the loop, and — in the `finally` block, whether or not an exception escaped —
unsubscribe every channel, commit, and close the cursor. -/
def listenRun (listeners : List (String × List Listener))
    (pipes : List PipeListener) (stream : List (String × String)) :
    List LEvent × Option PyException :=
  let body := runLoop listeners pipes stream
  ((listeners.map fun ev => LEvent.listenCmd ev.1) ++ [LEvent.commitTx]
      ++ body.1
      ++ ((listeners.map fun ev => LEvent.unlistenCmd ev.1)
        ++ [LEvent.commitTx, LEvent.closeCursor]),
    body.2)

/-- Whether a trace event is a subscription command. -/
def isSubCmd : LEvent → Bool
  | LEvent.listenCmd _ => true
  | LEvent.unlistenCmd _ => true
  | _ => false

/-- Effect of one trace event on the set of subscribed channels. -/
def subscribedStep (s : List String) (e : LEvent) : List String :=
  match e with
  | LEvent.listenCmd c => if c ∈ s then s else s ++ [c]
  | LEvent.unlistenCmd c => s.filter (· ≠ c)
  | _ => s

/-- The subscribed channels after a trace, starting from `s`. -/
def subscribedAfter (tr : List LEvent) (s : List String) : List String :=
  tr.foldl subscribedStep s

/-- The arguments handed to pipe callbacks in a trace. -/
def pipeArgs (tr : List LEvent) : List PyVal :=
  tr.filterMap fun e =>
    match e with
    | LEvent.invokePipe _ _ v => some v
    | _ => Option.none

/-- The callback identities invoked in a trace (channel listeners and
pipes). -/
def invokedIds (tr : List LEvent) : List Nat :=
  tr.filterMap fun e =>
    match e with
    | LEvent.invoke i _ => some i
    | LEvent.invokePipe i _ _ => some i
    | _ => Option.none

/-! ## The placeholder compiler (`Query._process_query`, lines 39-51)

```python
query_replace = self.query
self.parameters = list(dict.fromkeys(
    [item[1] for item in formatter.parse(query_replace) if item[1]]))
for index, parameter in enumerate(self.parameters):
    query_replace = query_replace.replace('{' + parameter + '}', '$' + str(index + 1))
```

Strings are modelled as `List Char`.  `string.Formatter.parse` is modelled by
`parseNamesAux` (restricted to templates without attribute/index syntax in
field names: a field name runs to the first `!`, `:`, `{` or `}`; a
conversion is one character; a format spec is skipped with brace-depth
counting; `{{`/`}}` are literal braces; a malformed template — lone `}`,
unterminated `{` — yields `Option.none`, modelling the raised `ValueError`).
`str.replace` is modelled by `replaceAllAux` (leftmost non-overlapping
occurrences, fuelled by the string length so it computes by kernel
reduction), `dict.fromkeys` dedup by `dedupFirst`, and `str(index + 1)` by
`decChars`. -/

/-- The left and right brace characters. -/
def lbrace : Char := '\x7b'

/-- See `lbrace`. -/
def rbrace : Char := '\x7d'

/-- Characters that may continue a format-string field name (anything up to
`!`, `:` or a brace). -/
def isNameChar (c : Char) : Bool :=
  !(c == '!' || c == ':' || c == lbrace || c == rbrace)

/-- Skip a format spec up to its closing brace, counting nested braces;
returns the rest of the input. -/
def spanSpec : Nat → List Char → Option (List Char)
  | _, [] => Option.none
  | d, c :: r =>
    if c = rbrace then
      match d with
      | 0 => some r
      | d' + 1 => spanSpec d' r
    else if c = lbrace then spanSpec (d + 1) r
    else spanSpec d r

/-- The field names yielded by `string.Formatter.parse`, in template order
(empty names included, as for `{}`); `Option.none` models `ValueError`.
Fuelled by the input length so it computes by kernel reduction. -/
def parseNamesAux : Nat → List Char → Option (List (List Char))
  | 0, _ => Option.none
  | _ + 1, [] => some []
  | fuel + 1, c :: cs =>
    if c = rbrace then
      match cs with
      | [] => Option.none
      | c2 :: r => if c2 = rbrace then parseNamesAux fuel r else Option.none
    else if c = lbrace then
      match cs with
      | [] => Option.none
      | c2 :: r =>
        if c2 = lbrace then parseNamesAux fuel r
        else
          match cs.dropWhile isNameChar with
          | [] => Option.none
          | d :: r2 =>
            if d = rbrace then
              (parseNamesAux fuel r2).map fun ns => cs.takeWhile isNameChar :: ns
            else if d = ':' then
              match spanSpec 0 r2 with
              | some r3 =>
                (parseNamesAux fuel r3).map fun ns => cs.takeWhile isNameChar :: ns
              | Option.none => Option.none
            else if d = '!' then
              match r2 with
              | [] => Option.none
              | [_] => Option.none
              | _ :: d2 :: r3 =>
                if d2 = rbrace then
                  (parseNamesAux fuel r3).map fun ns =>
                    cs.takeWhile isNameChar :: ns
                else if d2 = ':' then
                  match spanSpec 0 r3 with
                  | some r4 =>
                    (parseNamesAux fuel r4).map fun ns =>
                      cs.takeWhile isNameChar :: ns
                  | Option.none => Option.none
                else Option.none
            else Option.none
    else parseNamesAux fuel cs

/-- `formatter.parse(raw)` restricted to the field names. -/
def fieldNames (raw : List Char) : Option (List (List Char)) :=
  parseNamesAux (raw.length + 1) raw

/-- `dict.fromkeys` dedup: keep the first occurrence of each element. -/
def dedupFirstAux {α : Type} [DecidableEq α] (seen : List α) :
    List α → List α
  | [] => []
  | x :: xs =>
    if x ∈ seen then dedupFirstAux seen xs
    else x :: dedupFirstAux (seen ++ [x]) xs

/-- See `dedupFirstAux`. -/
def dedupFirst {α : Type} [DecidableEq α] (l : List α) : List α :=
  dedupFirstAux [] l

/-- `str.replace`: replace leftmost non-overlapping occurrences of `pat` by
`rep`, fuelled. -/
def replaceAllAux (pat rep : List Char) : Nat → List Char → List Char
  | 0, s => s
  | _ + 1, [] => []
  | fuel + 1, c :: cs =>
    if pat ≠ [] ∧ pat.isPrefixOf (c :: cs) then
      rep ++ replaceAllAux pat rep fuel ((c :: cs).drop pat.length)
    else c :: replaceAllAux pat rep fuel cs

/-- `s.replace(pat, rep)` for a non-empty pattern. -/
def replaceAll (pat rep s : List Char) : List Char :=
  replaceAllAux pat rep s.length s

/-- The decimal digits of `n`, least significant first, fuelled. -/
def decDigitsAux : Nat → Nat → List Nat
  | 0, _ => []
  | _ + 1, 0 => []
  | fuel + 1, n + 1 => (n + 1) % 10 :: decDigitsAux fuel ((n + 1) / 10)

/-- `str(n)` for a positive `n`: its decimal digit characters. -/
def decChars (n : Nat) : List Char :=
  ((decDigitsAux n n).reverse).map Nat.digitChar

/-- The numeric value of a digit character. -/
def charVal (c : Char) : Nat := c.toNat - 48

/-- The replacement loop of `_process_query`:
`for index, parameter in enumerate(parameters): ... .replace(...)`. -/
def rewriteLoop : List (List Char) → Nat → List Char → List Char
  | [], _, s => s
  | p :: rest, index, s =>
    rewriteLoop rest (index + 1)
      (replaceAll (lbrace :: (p ++ [rbrace])) ('$' :: decChars (index + 1)) s)

/-- `Query._process_query`: the parameter list (field names in
first-occurrence order, empty names dropped, deduplicated) and the rewritten
query text; `Option.none` models the `ValueError` a malformed template
raises. -/
def processQuery (raw : List Char) : Option (List (List Char) × List Char) :=
  match fieldNames raw with
  | Option.none => Option.none
  | some items =>
    let parameters := dedupFirst (items.filter fun n => n ≠ [])
    some (parameters, rewriteLoop parameters 0 raw)

/-! ### The positional markers of a rewritten query

A positional marker is a maximal `$`-plus-digits run, read as Postgres reads
`$17`. -/

/-- Scanner state: plain scanning, just after `$`, or inside a digit run with
the accumulated value. -/
inductive MSt where
  | scan : MSt
  | dollar : MSt
  | num : Nat → MSt

/-- One-pass extraction of the positional markers of a string. -/
def markScanAux : MSt → List Char → List Nat
  | st, [] =>
    match st with
    | MSt.num a => [a]
    | _ => []
  | st, c :: rest =>
    match st with
    | MSt.scan => markScanAux (if c = '$' then MSt.dollar else MSt.scan) rest
    | MSt.dollar =>
      if c.isDigit then markScanAux (MSt.num (charVal c)) rest
      else markScanAux (if c = '$' then MSt.dollar else MSt.scan) rest
    | MSt.num a =>
      if c.isDigit then markScanAux (MSt.num (10 * a + charVal c)) rest
      else if c = '$' then a :: markScanAux MSt.dollar rest
      else a :: markScanAux MSt.scan rest

/-- The positional markers occurring in a string, in order. -/
def markersOf (s : List Char) : List Nat :=
  markScanAux MSt.scan s

/-! ### Templates as literal/placeholder chunks

The amended claim quantifies over templates built from brace-and-dollar-free
literal chunks and simple `{identifier}` placeholders. -/

/-- Identifier characters (placeholder names in the amended claim). -/
def isIdentChar (c : Char) : Bool := c.isAlphanum || c == '_'

/-- A template chunk: a literal, or a `{name}` placeholder. -/
inductive Chunk where
  | lit : List Char → Chunk
  | field : List Char → Chunk

/-- The template text of a chunk. -/
def Chunk.render : Chunk → List Char
  | Chunk.lit s => s
  | Chunk.field n => lbrace :: (n ++ [rbrace])

/-- The template text of a chunk list. -/
def renderTemplate (chunks : List Chunk) : List Char :=
  (chunks.map Chunk.render).flatten

/-- Well-formedness for the amended claim: literals contain no brace and no
dollar and do not start with a digit (so they cannot create or extend a
positional marker), and placeholder names are non-empty identifiers. -/
def Chunk.wf : Chunk → Prop
  | Chunk.lit s => lbrace ∉ s ∧ rbrace ∉ s ∧ '$' ∉ s ∧
      ∀ c ∈ s.take 1, c.isDigit = false
  | Chunk.field n => n ≠ [] ∧ ∀ c ∈ n, isIdentChar c = true

instance (c : Chunk) : Decidable c.wf := by
  cases c with
  | lit s => exact inferInstanceAs (Decidable (_ ∧ _ ∧ _ ∧ _))
  | field n => exact inferInstanceAs (Decidable (_ ∧ _))

/-- The placeholder names of a chunk list, in template order. -/
def chunkNames : List Chunk → List (List Char)
  | [] => []
  | Chunk.lit _ :: rest => chunkNames rest
  | Chunk.field n :: rest => n :: chunkNames rest

/-- A piece of a partially rewritten template: a literal, an emitted
positional marker, or a still-unreplaced placeholder. -/
inductive Piece where
  | lit : List Char → Piece
  | mark : Nat → Piece
  | fld : List Char → Piece

/-- The text of a piece. -/
def Piece.render : Piece → List Char
  | Piece.lit s => s
  | Piece.mark k => '$' :: decChars k
  | Piece.fld n => lbrace :: (n ++ [rbrace])

/-- The text of a piece list. -/
def renderPieces (ps : List Piece) : List Char :=
  (ps.map Piece.render).flatten

/-- A chunk before any replacement has run. -/
def initPiece : Chunk → Piece
  | Chunk.lit s => Piece.lit s
  | Chunk.field n => Piece.fld n

/-- Index of the first occurrence of `x`, starting the count at `i`. -/
def firstIdx {α : Type} [DecidableEq α] : List α → α → Nat → Option Nat
  | [], _, _ => Option.none
  | y :: ys, x, i => if y = x then some i else firstIdx ys x (i + 1)

/-- The effect of one `replace` pass for parameter `p` with marker `k` on a
piece. -/
def replacePiece (p : List Char) (k : Nat) : Piece → Piece
  | Piece.fld q => if q = p then Piece.mark k else Piece.fld q
  | x => x

/-- The effect of the whole replacement loop (parameters `ps`, first marker
`i + 1`) on a piece. -/
def loopPiece (ps : List (List Char)) (i : Nat) : Piece → Piece
  | Piece.fld q =>
    match firstIdx ps q 0 with
    | some j => Piece.mark (i + j + 1)
    | Option.none => Piece.fld q
  | x => x

/-- The rewritten text the claim predicts: each `{name}` replaced by the
marker of the name's 1-based index in the deduplicated parameter order,
literals untouched. -/
def expectedRewrite (chunks : List Chunk) : List Char :=
  renderPieces ((chunks.map initPiece).map
    (loopPiece (dedupFirst (chunkNames chunks)) 0))

/-- The markers of a piece list, in order. -/
def pieceMarks (ps : List Piece) : List Nat :=
  ps.filterMap fun pc =>
    match pc with
    | Piece.mark k => some k
    | _ => Option.none

/-- The value of a little-endian digit list. -/
def decValue : List Nat → Nat
  | [] => 0
  | d :: ds => d + 10 * decValue ds

/-- The value of a big-endian digit-character list. -/
def charsValue (cs : List Char) : Nat :=
  cs.foldl (fun a c => 10 * a + charVal c) 0

/-- Well-formedness of fully rewritten pieces for marker scanning: literals
cannot start or extend a marker, markers are positive (their digit string is
non-empty), unreplaced placeholders are identifiers. -/
def MarkPieceWF : Piece → Prop
  | Piece.lit s => '$' ∉ s ∧ ∀ c ∈ s.take 1, c.isDigit = false
  | Piece.mark k => 1 ≤ k
  | Piece.fld q => ∀ c ∈ q, isIdentChar c = true

/-! ## Router inclusion and listener-list sharing
(`SQLRouter.add_listener` lines 85-89, `SimpleSQL.include_router` lines 155-166)

```python
def add_listener(self, event, callback):
    if event in self.listeners:
        self.listeners[event].append(callback)
    else:
        self.listeners[event] = [callback]

def include_router(self, router):
    ...
    for event, listeners in router.listeners.items():
        if event in self.listeners:
            self.listeners[event] = self.listeners[event] + listeners
        else:
            self.listeners[event] = listeners
```

Python list objects are mutable and shared by reference: `.append` mutates
the referenced object in place, `+` allocates a new object.  To make this
visible, callback lists live on an explicit heap and the `listeners` dicts
map channel names to heap references. -/

/-- A heap of Python list objects holding callback identities; a reference is
an index into `cells`. -/
structure ListHeap where
  cells : List (List Nat)

/-- Dereference a list object. -/
def ListHeap.read (h : ListHeap) (r : Nat) : List Nat :=
  h.cells.getD r []

/-- Mutate a list object in place (Python `list.append` / slice assignment). -/
def ListHeap.write (h : ListHeap) (r : Nat) (v : List Nat) : ListHeap :=
  ⟨h.cells.set r v⟩

/-- Allocate a fresh list object (Python list display or `+`). -/
def ListHeap.alloc (h : ListHeap) (v : List Nat) : ListHeap × Nat :=
  (⟨h.cells ++ [v]⟩, h.cells.length)

/-- A `listeners` dict: channel name → reference to a callback list. -/
abbrev ListenerTable : Type := List (String × Nat)

/-- `add_listener` (identical in `SQLRouter` and `SimpleSQL`): append to the
existing list object in place, or bind a freshly allocated one-element
list. -/
def addListener (h : ListHeap) (t : ListenerTable) (event : String)
    (cb : Nat) : ListHeap × ListenerTable :=
  match pyDictGet? t event with
  | some r => (h.write r (h.read r ++ [cb]), t)
  | Option.none =>
    let hr := h.alloc [cb]
    (hr.1, pyDictSet t event hr.2)

/-- One iteration of `include_router`'s merge loop for a router binding
`(event, r)`: when the client already has the channel, Python's list `+`
allocates a fresh object holding the concatenation and rebinds the client's
entry to it; otherwise the client's entry is bound to the router's list
object itself — an alias, not a copy. -/
def includeStep (h : ListHeap) (t : ListenerTable) (event : String)
    (r : Nat) : ListHeap × ListenerTable :=
  match pyDictGet? t event with
  | some cr =>
    let hr := h.alloc (h.read cr ++ h.read r)
    (hr.1, pyDictSet t event hr.2)
  | Option.none => (h, pyDictSet t event r)

/-- `SimpleSQL.include_router`: fold the merge step over the router's
bindings; the router's own table is not modified. -/
def includeRouter (h : ListHeap) (client : ListenerTable) :
    ListenerTable → ListHeap × ListenerTable
  | [] => (h, client)
  | (event, r) :: rest =>
    let step := includeStep h client event r
    includeRouter step.1 step.2 rest

/-- The heap after a router has been included into a client. -/
def mergedHeap (h : ListHeap) (client router : ListenerTable) : ListHeap :=
  (includeRouter h client router).1

/-- The client's listener table after a router has been included. -/
def mergedClient (h : ListHeap) (client router : ListenerTable) :
    ListenerTable :=
  (includeRouter h client router).2

/-- The heap after, post-inclusion, `router.add_listener(event, cb)` runs on
the already-included router. -/
def heapAfterLateAdd (h : ListHeap) (client router : ListenerTable)
    (event : String) (cb : Nat) : ListHeap :=
  (addListener (mergedHeap h client router) router event cb).1

/-- The callback list a table actually holds for a channel: dereference its
binding. -/
def effectiveListeners (h : ListHeap) (t : ListenerTable) (event : String) :
    List Nat :=
  match pyDictGet? t event with
  | some r => h.read r
  | Option.none => []

/-! ## Association-list dict lemmas -/

@[simp] theorem pyDictGet?_nil {α : Type} (k : String) :
    pyDictGet? ([] : List (String × α)) k = Option.none := rfl

@[simp] theorem pyDictGet?_cons {α : Type} (k' k : String) (v : α)
    (rest : List (String × α)) :
    pyDictGet? ((k', v) :: rest) k =
      if k' = k then some v else pyDictGet? rest k := rfl

theorem pyDictGet?_pyDictSet_self {α : Type} (m : List (String × α))
    (k : String) (v : α) : pyDictGet? (pyDictSet m k v) k = some v := by
  induction m with
  | nil => simp [pyDictSet]
  | cons p rest ih =>
    obtain ⟨k', v'⟩ := p
    by_cases h : k' = k <;> simp [pyDictSet, h, ih]

theorem pyDictGet?_pyDictSet_ne {α : Type} (m : List (String × α))
    (k k' : String) (v : α) (h : k ≠ k') :
    pyDictGet? (pyDictSet m k v) k' = pyDictGet? m k' := by
  induction m with
  | nil => simp [pyDictSet, h]
  | cons p rest ih =>
    obtain ⟨k₀, v₀⟩ := p
    by_cases h₀ : k₀ = k
    · subst h₀
      simp [pyDictSet, h]
    · simp [pyDictSet, h₀, ih]

/-! ## Placeholder-compiler lemmas: `str.replace` -/

theorem replaceAllAux_nil (pat rep : List Char) (f : Nat) :
    replaceAllAux pat rep f [] = [] := by
  cases f <;> rfl

theorem replaceAllAux_cons_neg (pat rep : List Char) (f : Nat) (c : Char)
    (cs : List Char) (h : ¬(pat ≠ [] ∧ pat.isPrefixOf (c :: cs))) :
    replaceAllAux pat rep (f + 1) (c :: cs) =
      c :: replaceAllAux pat rep f cs := by
  simp only [replaceAllAux]
  rw [if_neg h]

theorem replaceAllAux_cons_pos (pat rep : List Char) (f : Nat) (c : Char)
    (cs : List Char) (h1 : pat ≠ []) (h2 : pat.isPrefixOf (c :: cs)) :
    replaceAllAux pat rep (f + 1) (c :: cs) =
      rep ++ replaceAllAux pat rep f ((c :: cs).drop pat.length) := by
  simp only [replaceAllAux]
  rw [if_pos ⟨h1, h2⟩]

theorem isPrefixOf_append_self (l t : List Char) :
    l.isPrefixOf (l ++ t) = true := by
  induction l with
  | nil => simp [List.isPrefixOf]
  | cons a as ih => simp [List.isPrefixOf, ih]

theorem isPrefixOf_cons_of_ne (p0 : Char) (pat' : List Char) (c : Char)
    (cs : List Char) (h : c ≠ p0) :
    (p0 :: pat').isPrefixOf (c :: cs) = false := by
  have hb : (p0 == c) = false := beq_eq_false_iff_ne.mpr (fun he => h he.symm)
  simp [List.isPrefixOf, hb]

theorem replaceAllAux_skip (p0 : Char) (pat' rep : List Char)
    (s t : List Char) (hs : p0 ∉ s) (f : Nat) :
    replaceAllAux (p0 :: pat') rep (f + (s ++ t).length) (s ++ t) =
      s ++ replaceAllAux (p0 :: pat') rep (f + t.length) t := by
  induction s with
  | nil => simp
  | cons c s' ih =>
    have hc : c ≠ p0 := fun he => hs (he ▸ List.mem_cons_self c s')
    have hs' : p0 ∉ s' := fun hmem => hs (List.mem_cons_of_mem _ hmem)
    show replaceAllAux (p0 :: pat') rep ((f + (s' ++ t).length) + 1)
      (c :: (s' ++ t)) = _
    rw [replaceAllAux_cons_neg _ _ _ _ _
      (by
        intro hcontra
        rw [isPrefixOf_cons_of_ne p0 pat' c (s' ++ t) hc] at hcontra
        exact Bool.false_ne_true hcontra.2)]
    rw [ih hs']
    rfl

theorem replaceAllAux_head_match (p0 : Char) (pat' rep : List Char)
    (t : List Char) (f : Nat) :
    replaceAllAux (p0 :: pat') rep (f + ((p0 :: pat') ++ t).length)
      ((p0 :: pat') ++ t) =
      rep ++ replaceAllAux (p0 :: pat') rep ((f + pat'.length) + t.length) t := by
  rw [List.cons_append]
  rw [show f + (p0 :: (pat' ++ t)).length = ((f + pat'.length) + t.length) + 1 by
    simp only [List.length_cons, List.length_append]; omega]
  rw [replaceAllAux_cons_pos _ _ _ p0 (pat' ++ t) (by simp)
    (by
      have : (p0 :: pat').isPrefixOf ((p0 :: pat') ++ t) = true :=
        isPrefixOf_append_self _ _
      rwa [List.cons_append] at this)]
  congr 1
  show replaceAllAux _ _ _ ((p0 :: (pat' ++ t)).drop (pat'.length + 1)) = _
  rw [List.drop_succ_cons, List.drop_left]

theorem field_prefix_eq (p q R : List Char) (hp : rbrace ∉ p)
    (hq : ∀ c ∈ q, c ≠ rbrace)
    (h : (p ++ [rbrace]).isPrefixOf ((q ++ [rbrace]) ++ R) = true) : p = q := by
  induction p generalizing q with
  | nil =>
    cases q with
    | nil => rfl
    | cons b q' =>
      exfalso
      have hb : b ≠ rbrace := hq b (List.mem_cons_self _ _)
      simp only [List.nil_append, List.cons_append, List.append_assoc,
        List.singleton_append] at h
      rw [isPrefixOf_cons_of_ne rbrace [] b (q' ++ rbrace :: R) hb] at h
      exact Bool.false_ne_true h
  | cons a p' ih =>
    have ha : a ≠ rbrace := fun he => hp (he ▸ List.mem_cons_self a p')
    have hp' : rbrace ∉ p' := fun hmem => hp (List.mem_cons_of_mem _ hmem)
    cases q with
    | nil =>
      exfalso
      simp only [List.nil_append, List.cons_append] at h
      rw [isPrefixOf_cons_of_ne a (p' ++ [rbrace]) rbrace R
        (fun he => ha he.symm)] at h
      exact Bool.false_ne_true h
    | cons b q' =>
      have hq' : ∀ c ∈ q', c ≠ rbrace :=
        fun c hc => hq c (List.mem_cons_of_mem _ hc)
      simp only [List.cons_append] at h
      rw [show (a :: (p' ++ [rbrace])).isPrefixOf
          (b :: ((q' ++ [rbrace]) ++ R)) =
          ((a == b) && (p' ++ [rbrace]).isPrefixOf ((q' ++ [rbrace]) ++ R))
        from rfl, Bool.and_eq_true] at h
      have hab : a = b := eq_of_beq h.1
      rw [hab, ih q' hp' hq' h.2]

/-- Well-formedness of pieces during the replacement loop. -/
def PieceWF : Piece → Prop
  | Piece.lit s => lbrace ∉ s
  | Piece.mark _ => True
  | Piece.fld q => ∀ c ∈ q, isIdentChar c = true

theorem identChar_ne (c : Char) (h : isIdentChar c = true) :
    c ≠ '!' ∧ c ≠ ':' ∧ c ≠ lbrace ∧ c ≠ rbrace ∧ c ≠ '$' := by
  refine ⟨?_, ?_, ?_, ?_, ?_⟩ <;>
    · intro he
      subst he
      exact absurd h (by decide)

theorem isDigit_ne (c : Char) (h : c.isDigit = true) :
    c ≠ '$' ∧ c ≠ lbrace ∧ c ≠ rbrace := by
  refine ⟨?_, ?_, ?_⟩ <;>
    · intro he
      subst he
      exact absurd h (by decide)

theorem decDigitsAux_lt (fuel n : Nat) : ∀ d ∈ decDigitsAux fuel n, d < 10 := by
  induction fuel generalizing n with
  | zero => intro d hd; simp [decDigitsAux] at hd
  | succ f ih =>
    cases n with
    | zero => intro d hd; simp [decDigitsAux] at hd
    | succ m =>
      intro d hd
      rw [show decDigitsAux (f + 1) (m + 1) =
        ((m + 1) % 10) :: decDigitsAux f ((m + 1) / 10) from rfl] at hd
      rcases List.mem_cons.mp hd with h | h
      · subst h; exact Nat.mod_lt _ (by omega)
      · exact ih _ d h

theorem digitChar_isDigit : ∀ d, d < 10 → (Nat.digitChar d).isDigit = true := by
  decide

theorem decChars_isDigit (n : Nat) : ∀ c ∈ decChars n, c.isDigit = true := by
  intro c hc
  unfold decChars at hc
  rcases List.mem_map.mp hc with ⟨d, hd, he⟩
  have hlt : d < 10 := decDigitsAux_lt n n d (List.mem_reverse.mp hd)
  subst he
  exact digitChar_isDigit d hlt

theorem lbrace_not_mem_mark (k : Nat) : lbrace ∉ '$' :: decChars k := by
  intro hmem
  rcases List.mem_cons.mp hmem with h | h
  · exact absurd h (by decide)
  · exact (isDigit_ne lbrace (decChars_isDigit k lbrace h)).2.1 rfl

theorem replaceAll_pieces (p : List Char) (k : Nat) (pieces : List Piece)
    (hp : ∀ c ∈ p, isIdentChar c = true)
    (hw : ∀ pc ∈ pieces, PieceWF pc) (f : Nat) :
    replaceAllAux (lbrace :: (p ++ [rbrace])) ('$' :: decChars k)
        (f + (renderPieces pieces).length) (renderPieces pieces) =
      renderPieces (pieces.map (replacePiece p k)) := by
  induction pieces generalizing f with
  | nil => exact replaceAllAux_nil _ _ _
  | cons pc rest ih =>
    have hwrest : ∀ x ∈ rest, PieceWF x :=
      fun x hx => hw x (List.mem_cons_of_mem _ hx)
    cases pc with
    | lit s =>
      have hs : lbrace ∉ s := hw (Piece.lit s) (List.mem_cons_self _ _)
      have hrender : renderPieces (Piece.lit s :: rest) =
          s ++ renderPieces rest := by
        simp [renderPieces, Piece.render]
      rw [hrender,
        replaceAllAux_skip lbrace _ _ s (renderPieces rest) hs f, ih hwrest f]
      simp [renderPieces, replacePiece, Piece.render]
    | mark k' =>
      have hrender : renderPieces (Piece.mark k' :: rest) =
          ('$' :: decChars k') ++ renderPieces rest := by
        simp [renderPieces, Piece.render]
      rw [hrender,
        replaceAllAux_skip lbrace _ _ ('$' :: decChars k')
          (renderPieces rest) (lbrace_not_mem_mark k') f, ih hwrest f]
      simp [renderPieces, replacePiece, Piece.render]
    | fld q =>
      have hq : ∀ c ∈ q, isIdentChar c = true :=
        hw (Piece.fld q) (List.mem_cons_self _ _)
      by_cases hqp : q = p
      · subst hqp
        have hrender : renderPieces (Piece.fld q :: rest) =
            (lbrace :: (q ++ [rbrace])) ++ renderPieces rest := by
          simp [renderPieces, Piece.render]
        rw [hrender,
          replaceAllAux_head_match lbrace (q ++ [rbrace]) _
            (renderPieces rest) f,
          ih hwrest (f + (q ++ [rbrace]).length)]
        simp [renderPieces, replacePiece, Piece.render]
      · have hrender : renderPieces (Piece.fld q :: rest) =
            lbrace :: ((q ++ [rbrace]) ++ renderPieces rest) := by
          simp [renderPieces, Piece.render]
        have hnotpre : ¬((lbrace :: (p ++ [rbrace])) ≠ [] ∧
            (lbrace :: (p ++ [rbrace])).isPrefixOf
              (lbrace :: ((q ++ [rbrace]) ++ renderPieces rest))) := by
          rintro ⟨-, hpre⟩
          have hinner : (p ++ [rbrace]).isPrefixOf
              ((q ++ [rbrace]) ++ renderPieces rest) = true := by
            have hsplit : (lbrace :: (p ++ [rbrace])).isPrefixOf
                (lbrace :: ((q ++ [rbrace]) ++ renderPieces rest)) =
                ((lbrace == lbrace) &&
                  (p ++ [rbrace]).isPrefixOf
                    ((q ++ [rbrace]) ++ renderPieces rest)) := rfl
            rw [hsplit] at hpre
            simpa using hpre
          exact hqp ((field_prefix_eq p q (renderPieces rest)
            (fun hmem => (identChar_ne rbrace (hp rbrace hmem)).2.2.2.1 rfl)
            (fun c hc he =>
              (identChar_ne c (hq c hc)).2.2.2.1 he) hinner)).symm
        rw [hrender]
        rw [show f + (lbrace :: ((q ++ [rbrace]) ++ renderPieces rest)).length =
          (f + ((q ++ [rbrace]) ++ renderPieces rest).length) + 1 by
            simp [List.length_cons]
            omega]
        rw [replaceAllAux_cons_neg _ _ _ _ _ hnotpre]
        have hnb : lbrace ∉ q ++ [rbrace] := by
          intro hmem
          rcases List.mem_append.mp hmem with h | h
          · exact (identChar_ne lbrace (hq lbrace h)).2.2.1 rfl
          · have he := List.mem_singleton.mp h
            exact absurd he (by decide)
        rw [replaceAllAux_skip lbrace _ _ (q ++ [rbrace])
          (renderPieces rest) hnb f, ih hwrest f]
        simp [renderPieces, replacePiece, Piece.render, hqp]

/-! ## Placeholder-compiler lemmas: `Formatter.parse` -/

theorem takeWhile_dropWhile_append {α : Type} (pred : α → Bool) (s : List α)
    (d : α) (t : List α) (hs : ∀ c ∈ s, pred c = true) (hd : pred d = false) :
    (s ++ d :: t).takeWhile pred = s ∧ (s ++ d :: t).dropWhile pred = d :: t := by
  induction s with
  | nil => simp [List.takeWhile_cons, List.dropWhile_cons, hd]
  | cons c s' ih =>
    have hc : pred c = true := hs c (List.mem_cons_self _ _)
    have ih' := ih fun x hx => hs x (List.mem_cons_of_mem _ hx)
    simp only [List.cons_append, List.takeWhile_cons, List.dropWhile_cons, hc,
      if_true]
    exact ⟨by rw [ih'.1], by rw [ih'.2]⟩

theorem identChar_isNameChar (c : Char) (h : isIdentChar c = true) :
    isNameChar c = true := by
  obtain ⟨h1, h2, h3, h4, -⟩ := identChar_ne c h
  unfold isNameChar
  rw [beq_eq_false_iff_ne.mpr h1, beq_eq_false_iff_ne.mpr h2,
    beq_eq_false_iff_ne.mpr h3, beq_eq_false_iff_ne.mpr h4]
  rfl

theorem parseNamesAux_other (f : Nat) (c : Char) (cs : List Char)
    (h1 : c ≠ rbrace) (h2 : c ≠ lbrace) :
    parseNamesAux (f + 1) (c :: cs) = parseNamesAux f cs := by
  simp only [parseNamesAux]
  rw [if_neg h1, if_neg h2]

theorem parseNamesAux_lit (s t : List Char) (hs1 : lbrace ∉ s)
    (hs2 : rbrace ∉ s) (f : Nat) :
    parseNamesAux (f + (s ++ t).length) (s ++ t) =
      parseNamesAux (f + t.length) t := by
  induction s with
  | nil => simp
  | cons c s' ih =>
    have hc1 : c ≠ rbrace := fun he => hs2 (he ▸ List.mem_cons_self c s')
    have hc2 : c ≠ lbrace := fun he => hs1 (he ▸ List.mem_cons_self c s')
    show parseNamesAux ((f + (s' ++ t).length) + 1) (c :: (s' ++ t)) = _
    rw [parseNamesAux_other _ c _ hc1 hc2]
    exact ih (fun hmem => hs1 (List.mem_cons_of_mem _ hmem))
      (fun hmem => hs2 (List.mem_cons_of_mem _ hmem))

theorem parseNamesAux_field (n t : List Char) (hn : n ≠ [])
    (hident : ∀ c ∈ n, isIdentChar c = true) (f : Nat) :
    parseNamesAux (f + ((lbrace :: (n ++ [rbrace])) ++ t).length)
        ((lbrace :: (n ++ [rbrace])) ++ t) =
      (parseNamesAux ((f + n.length + 1) + t.length) t).map fun ns => n :: ns := by
  cases n with
  | nil => exact absurd rfl hn
  | cons n0 n' =>
    have hname : ∀ c ∈ n0 :: n', isNameChar c = true :=
      fun c hc => identChar_isNameChar c (hident c hc)
    have hn0 : n0 ≠ lbrace :=
      (identChar_ne n0 (hident n0 (List.mem_cons_self _ _))).2.2.1
    have htw := takeWhile_dropWhile_append isNameChar (n0 :: n') rbrace t
      hname (by decide)
    have htake : (n0 :: (n' ++ rbrace :: t)).takeWhile isNameChar =
        n0 :: n' := by
      have := htw.1
      simpa using this
    have hdrop : (n0 :: (n' ++ rbrace :: t)).dropWhile isNameChar =
        rbrace :: t := by
      have := htw.2
      simpa using this
    have hshape : ((lbrace :: ((n0 :: n') ++ [rbrace])) ++ t) =
        lbrace :: n0 :: (n' ++ rbrace :: t) := by simp
    rw [hshape]
    rw [show f + (lbrace :: n0 :: (n' ++ rbrace :: t)).length =
      (f + (n0 :: (n' ++ rbrace :: t)).length) + 1 by simp; omega]
    simp only [parseNamesAux, htake, hdrop, hn0, ite_false, ite_true,
      eq_self_iff_true, if_neg (show ¬(lbrace = rbrace) from by decide),
      if_false]
    congr 2
    simp only [List.length_cons, List.length_append]
    omega

theorem parseNamesAux_template (chunks : List Chunk)
    (hwf : ∀ c ∈ chunks, c.wf) (t : List Char) (ns : List (List Char))
    (H : ∀ g, 1 ≤ g → parseNamesAux (g + t.length) t = some ns) :
    ∀ f, 1 ≤ f →
      parseNamesAux (f + (renderTemplate chunks ++ t).length)
          (renderTemplate chunks ++ t) =
        some (chunkNames chunks ++ ns) := by
  induction chunks generalizing t ns with
  | nil =>
    intro f hf
    simpa [renderTemplate, chunkNames] using H f hf
  | cons c rest ih =>
    have hwrest : ∀ x ∈ rest, x.wf := fun x hx => hwf x (List.mem_cons_of_mem _ hx)
    cases c with
    | lit s =>
      intro f hf
      obtain ⟨hs1, hs2, -, -⟩ := hwf (Chunk.lit s) (List.mem_cons_self _ _)
      have hrt : renderTemplate (Chunk.lit s :: rest) ++ t =
          s ++ (renderTemplate rest ++ t) := by
        simp [renderTemplate, Chunk.render]
      rw [hrt, parseNamesAux_lit s (renderTemplate rest ++ t) hs1 hs2 f]
      have := ih hwrest t ns H f hf
      rw [this]
      simp [chunkNames]
    | field n =>
      intro f hf
      obtain ⟨hn, hident⟩ := hwf (Chunk.field n) (List.mem_cons_self _ _)
      have hrt : renderTemplate (Chunk.field n :: rest) ++ t =
          (lbrace :: (n ++ [rbrace])) ++ (renderTemplate rest ++ t) := by
        simp [renderTemplate, Chunk.render]
      rw [hrt, parseNamesAux_field n (renderTemplate rest ++ t) hn hident f]
      have := ih hwrest t ns H (f + n.length + 1) (by omega)
      rw [this]
      simp [chunkNames]

theorem fieldNames_template (chunks : List Chunk)
    (hwf : ∀ c ∈ chunks, c.wf) :
    fieldNames (renderTemplate chunks) = some (chunkNames chunks) := by
  unfold fieldNames
  have H : ∀ g, 1 ≤ g →
      parseNamesAux (g + ([] : List Char).length) [] = some [] := by
    intro g hg
    obtain ⟨g', rfl⟩ : ∃ g', g = g' + 1 := ⟨g - 1, by omega⟩
    rfl
  have h := parseNamesAux_template chunks hwf [] [] H 1 (Nat.le_refl 1)
  rw [List.append_nil] at h
  rw [show (renderTemplate chunks).length + 1 =
    1 + (renderTemplate chunks).length by omega]
  simpa using h

/-! ## Placeholder-compiler lemmas: dedup and first indices -/

theorem mem_dedupFirstAux {α : Type} [DecidableEq α] (l : List α)
    (seen : List α) (x : α) :
    x ∈ dedupFirstAux seen l ↔ x ∈ l ∧ x ∉ seen := by
  induction l generalizing seen with
  | nil => simp [dedupFirstAux]
  | cons y ys ih =>
    by_cases hy : y ∈ seen
    · rw [show dedupFirstAux seen (y :: ys) = dedupFirstAux seen ys from by
        simp [dedupFirstAux, hy]]
      rw [ih]
      constructor
      · rintro ⟨h1, h2⟩
        exact ⟨List.mem_cons_of_mem _ h1, h2⟩
      · rintro ⟨h1, h2⟩
        rcases List.mem_cons.mp h1 with h | h
        · exact absurd (h ▸ hy) h2
        · exact ⟨h, h2⟩
    · rw [show dedupFirstAux seen (y :: ys) =
        y :: dedupFirstAux (seen ++ [y]) ys from by simp [dedupFirstAux, hy]]
      rw [List.mem_cons, ih]
      simp only [List.mem_append, List.mem_singleton, List.mem_cons]
      constructor
      · rintro (rfl | ⟨h1, h2⟩)
        · exact ⟨Or.inl rfl, hy⟩
        · exact ⟨Or.inr h1, fun hc => h2 (Or.inl hc)⟩
      · rintro ⟨h1 | h1, h2⟩
        · exact Or.inl h1
        · by_cases hxy : x = y
          · exact Or.inl hxy
          · exact Or.inr ⟨h1, fun hc =>
              hc.elim (fun hs => h2 hs) (fun he => hxy (by simpa using he))⟩

theorem mem_dedupFirst {α : Type} [DecidableEq α] (l : List α) (x : α) :
    x ∈ dedupFirst l ↔ x ∈ l := by
  unfold dedupFirst
  rw [mem_dedupFirstAux]
  simp

theorem nodup_dedupFirstAux {α : Type} [DecidableEq α] (l : List α)
    (seen : List α) : (dedupFirstAux seen l).Nodup := by
  induction l generalizing seen with
  | nil => exact List.nodup_nil
  | cons y ys ih =>
    by_cases hy : y ∈ seen
    · rw [show dedupFirstAux seen (y :: ys) = dedupFirstAux seen ys from by
        simp [dedupFirstAux, hy]]
      exact ih seen
    · rw [show dedupFirstAux seen (y :: ys) =
        y :: dedupFirstAux (seen ++ [y]) ys from by simp [dedupFirstAux, hy]]
      refine List.Nodup.cons ?_ (ih (seen ++ [y]))
      intro hmem
      rcases (mem_dedupFirstAux ys (seen ++ [y]) y).mp hmem with ⟨-, h2⟩
      exact h2 (by simp)

theorem firstIdx_shift {α : Type} [DecidableEq α] (l : List α) (x : α)
    (i : Nat) : firstIdx l x i = (firstIdx l x 0).map (· + i) := by
  induction l generalizing i with
  | nil => rfl
  | cons y ys ih =>
    by_cases hy : y = x
    · simp [firstIdx, hy]
    · rw [show firstIdx (y :: ys) x i = firstIdx ys x (i + 1) from by
        simp [firstIdx, hy]]
      rw [show firstIdx (y :: ys) x 0 = firstIdx ys x 1 from by
        simp [firstIdx, hy]]
      rw [ih (i + 1), ih 1]
      cases firstIdx ys x 0 with
      | none => rfl
      | some j =>
        simp [Option.map]
        omega

theorem firstIdx_mem {α : Type} [DecidableEq α] (l : List α) (x : α)
    (h : x ∈ l) : ∃ j, firstIdx l x 0 = some j ∧ j < l.length := by
  induction l with
  | nil => exact absurd h (List.not_mem_nil x)
  | cons y ys ih =>
    by_cases hy : y = x
    · exact ⟨0, by simp [firstIdx, hy], by simp⟩
    · rcases List.mem_cons.mp h with he | hmem
      · exact absurd he.symm hy
      · rcases ih hmem with ⟨j, hj, hlt⟩
        refine ⟨j + 1, ?_, by simp; omega⟩
        rw [show firstIdx (y :: ys) x 0 = firstIdx ys x 1 from by
          simp [firstIdx, hy]]
        rw [firstIdx_shift, hj]
        rfl

theorem firstIdx_self {α : Type} [DecidableEq α] (l : List α)
    (hnd : l.Nodup) (j : Nat) (hj : j < l.length) :
    firstIdx l (l.get ⟨j, hj⟩) 0 = some j := by
  induction l generalizing j with
  | nil => simp at hj
  | cons y ys ih =>
    cases j with
    | zero => simp [firstIdx]
    | succ j' =>
      have hj' : j' < ys.length := by simpa using hj
      have hnd' : ys.Nodup := hnd.of_cons
      have hywys : y ∉ ys := (List.nodup_cons.mp hnd).1
      have hy : y ≠ ys.get ⟨j', hj'⟩ := by
        intro he
        exact hywys (he ▸ List.get_mem ys j' hj')
      show firstIdx (y :: ys) ((y :: ys).get ⟨j' + 1, hj⟩) 0 = some (j' + 1)
      rw [show (y :: ys).get ⟨j' + 1, hj⟩ = ys.get ⟨j', hj'⟩ from rfl]
      rw [show firstIdx (y :: ys) (ys.get ⟨j', hj'⟩) 0 =
        if y = ys.get ⟨j', hj'⟩ then some 0
        else firstIdx ys (ys.get ⟨j', hj'⟩) 1 from rfl]
      rw [if_neg hy, firstIdx_shift, ih hnd' j' hj']
      rfl

/-! ## Placeholder-compiler lemmas: the replacement loop over pieces -/

theorem replaceAll_pieces_eq (p : List Char) (k : Nat) (pieces : List Piece)
    (hp : ∀ c ∈ p, isIdentChar c = true)
    (hw : ∀ pc ∈ pieces, PieceWF pc) :
    replaceAll (lbrace :: (p ++ [rbrace])) ('$' :: decChars k)
        (renderPieces pieces) =
      renderPieces (pieces.map (replacePiece p k)) := by
  unfold replaceAll
  rw [show (renderPieces pieces).length =
    0 + (renderPieces pieces).length from (Nat.zero_add _).symm]
  exact replaceAll_pieces p k pieces hp hw 0

theorem replacePiece_fld (p : List Char) (k : Nat) (q : List Char) :
    replacePiece p k (Piece.fld q) =
      if q = p then Piece.mark k else Piece.fld q := rfl

theorem loopPiece_fld (ps : List (List Char)) (i : Nat) (q : List Char) :
    loopPiece ps i (Piece.fld q) =
      match firstIdx ps q 0 with
      | some j => Piece.mark (i + j + 1)
      | Option.none => Piece.fld q := rfl

theorem replacePiece_wf (p : List Char) (k : Nat) (pc : Piece)
    (h : PieceWF pc) : PieceWF (replacePiece p k pc) := by
  cases pc with
  | lit s => exact h
  | mark k' => exact h
  | fld q =>
    rw [replacePiece_fld]
    by_cases hq : q = p
    · rw [if_pos hq]; trivial
    · rw [if_neg hq]; exact h

theorem loopPiece_nil (i : Nat) (pieces : List Piece) :
    pieces.map (loopPiece [] i) = pieces := by
  induction pieces with
  | nil => rfl
  | cons pc rest ih =>
    rw [List.map_cons, ih]
    congr 1
    cases pc <;> simp [loopPiece, firstIdx]

theorem loopPiece_step (p : List Char) (rest : List (List Char)) (i : Nat)
    (pc : Piece) :
    loopPiece rest (i + 1) (replacePiece p (i + 1) pc) =
      loopPiece (p :: rest) i pc := by
  cases pc with
  | lit s => rfl
  | mark k => rfl
  | fld q =>
    by_cases hq : q = p
    · subst hq
      rw [show replacePiece q (i + 1) (Piece.fld q) = Piece.mark (i + 1) from by
        rw [replacePiece_fld, if_pos rfl]]
      rw [loopPiece_fld]
      rw [show firstIdx (q :: rest) q 0 = some 0 from by simp [firstIdx]]
      rfl
    · rw [show replacePiece p (i + 1) (Piece.fld q) = Piece.fld q from by
        rw [replacePiece_fld, if_neg hq]]
      rw [loopPiece_fld, loopPiece_fld]
      rw [show firstIdx (p :: rest) q 0 = firstIdx rest q 1 from by
        rw [show firstIdx (p :: rest) q 0 =
          if p = q then some 0 else firstIdx rest q 1 from rfl,
          if_neg (fun he => hq he.symm)]]
      rw [firstIdx_shift rest q 1]
      cases firstIdx rest q 0 with
      | none => rfl
      | some j =>
        simp only [Option.map]
        congr 1
        omega

theorem rewriteLoop_pieces (ps : List (List Char)) (i : Nat)
    (pieces : List Piece)
    (hps : ∀ p ∈ ps, ∀ c ∈ p, isIdentChar c = true)
    (hw : ∀ pc ∈ pieces, PieceWF pc) :
    rewriteLoop ps i (renderPieces pieces) =
      renderPieces (pieces.map (loopPiece ps i)) := by
  induction ps generalizing i pieces with
  | nil => rw [loopPiece_nil]; rfl
  | cons p rest ih =>
    have hp : ∀ c ∈ p, isIdentChar c = true := hps p (List.mem_cons_self _ _)
    have hrest : ∀ q ∈ rest, ∀ c ∈ q, isIdentChar c = true :=
      fun q hq => hps q (List.mem_cons_of_mem _ hq)
    show rewriteLoop rest (i + 1)
      (replaceAll (lbrace :: (p ++ [rbrace])) ('$' :: decChars (i + 1))
        (renderPieces pieces)) = _
    rw [replaceAll_pieces_eq p (i + 1) pieces hp hw]
    rw [ih (i + 1) (pieces.map (replacePiece p (i + 1))) hrest
      (fun pc hpc => by
        rcases List.mem_map.mp hpc with ⟨pc0, hpc0, rfl⟩
        exact replacePiece_wf p (i + 1) pc0 (hw pc0 hpc0))]
    rw [List.map_map]
    congr 1
    apply List.map_congr_left
    intro pc _
    exact loopPiece_step p rest i pc

theorem mem_chunkNames (chunks : List Chunk) (n : List Char)
    (h : n ∈ chunkNames chunks) : Chunk.field n ∈ chunks := by
  induction chunks with
  | nil => simp [chunkNames] at h
  | cons c rest ih =>
    cases c with
    | lit s => exact List.mem_cons_of_mem _ (ih h)
    | field m =>
      rcases List.mem_cons.mp h with he | hmem
      · exact he ▸ List.mem_cons_self _ _
      · exact List.mem_cons_of_mem _ (ih hmem)

theorem renderTemplate_eq_pieces (chunks : List Chunk) :
    renderTemplate chunks = renderPieces (chunks.map initPiece) := by
  induction chunks with
  | nil => rfl
  | cons c rest ih =>
    show (Chunk.render c :: (rest.map Chunk.render)).flatten = _
    rw [List.flatten_cons]
    rw [show renderPieces ((c :: rest).map initPiece) =
      Piece.render (initPiece c) ++ renderPieces (rest.map initPiece) from by
        simp [renderPieces]]
    rw [show renderTemplate rest = (rest.map Chunk.render).flatten from rfl] at ih
    rw [ih]
    congr 1
    cases c <;> rfl

theorem initPiece_wf (c : Chunk) (h : c.wf) : PieceWF (initPiece c) := by
  cases c with
  | lit s => exact h.1
  | field n => exact h.2

/-! ## Placeholder-compiler lemmas: marker scanning -/

theorem markScanAux_scan_cons (c : Char) (rest : List Char) :
    markScanAux MSt.scan (c :: rest) =
      markScanAux (if c = '$' then MSt.dollar else MSt.scan) rest := rfl

theorem markScanAux_num_cons (a : Nat) (c : Char) (rest : List Char) :
    markScanAux (MSt.num a) (c :: rest) =
      if c.isDigit then markScanAux (MSt.num (10 * a + charVal c)) rest
      else if c = '$' then a :: markScanAux MSt.dollar rest
      else a :: markScanAux MSt.scan rest := rfl

theorem markScanAux_dollar_cons (c : Char) (rest : List Char) :
    markScanAux MSt.dollar (c :: rest) =
      if c.isDigit then markScanAux (MSt.num (charVal c)) rest
      else markScanAux (if c = '$' then MSt.dollar else MSt.scan) rest := rfl

theorem markScanAux_scan_skip (s t : List Char) (hs : '$' ∉ s) :
    markScanAux MSt.scan (s ++ t) = markScanAux MSt.scan t := by
  induction s with
  | nil => rfl
  | cons c s' ih =>
    have hc : c ≠ '$' := fun he => hs (he ▸ List.mem_cons_self c s')
    rw [List.cons_append, markScanAux_scan_cons, if_neg hc]
    exact ih fun hmem => hs (List.mem_cons_of_mem _ hmem)

theorem markScanAux_num_digits (ds : List Char)
    (hd : ∀ c ∈ ds, c.isDigit = true) (a : Nat) (t : List Char) :
    markScanAux (MSt.num a) (ds ++ t) =
      markScanAux (MSt.num (ds.foldl (fun x c => 10 * x + charVal c) a)) t := by
  induction ds generalizing a with
  | nil => rfl
  | cons d ds' ih =>
    have hdd : d.isDigit = true := hd d (List.mem_cons_self _ _)
    rw [List.cons_append, markScanAux_num_cons, if_pos hdd,
      ih (fun c hc => hd c (List.mem_cons_of_mem _ hc))]
    rfl

theorem charVal_digitChar : ∀ d, d < 10 → charVal (Nat.digitChar d) = d := by
  decide

theorem decValue_decDigitsAux (fuel n : Nat) (h : n ≤ fuel) :
    decValue (decDigitsAux fuel n) = n := by
  induction fuel generalizing n with
  | zero =>
    have : n = 0 := by omega
    subst this
    rfl
  | succ f ih =>
    cases n with
    | zero => rfl
    | succ m =>
      rw [show decDigitsAux (f + 1) (m + 1) =
        ((m + 1) % 10) :: decDigitsAux f ((m + 1) / 10) from rfl]
      rw [show decValue (((m + 1) % 10) :: decDigitsAux f ((m + 1) / 10)) =
        (m + 1) % 10 + 10 * decValue (decDigitsAux f ((m + 1) / 10)) from rfl]
      rw [ih ((m + 1) / 10) (by omega)]
      omega

theorem charsValue_reverse_map (ds : List Nat) (h : ∀ d ∈ ds, d < 10) :
    charsValue ((ds.reverse).map Nat.digitChar) = decValue ds := by
  induction ds with
  | nil => rfl
  | cons d ds' ih =>
    have hd : d < 10 := h d (List.mem_cons_self _ _)
    have ih' := ih fun x hx => h x (List.mem_cons_of_mem _ hx)
    rw [List.reverse_cons, List.map_append, List.map_singleton]
    rw [show charsValue ((ds'.reverse.map Nat.digitChar) ++ [Nat.digitChar d]) =
      10 * charsValue (ds'.reverse.map Nat.digitChar) +
        charVal (Nat.digitChar d) from by
      unfold charsValue
      rw [List.foldl_append]
      rfl]
    rw [ih', charVal_digitChar d hd]
    rw [show decValue (d :: ds') = d + 10 * decValue ds' from rfl]
    omega

theorem charsValue_decChars (n : Nat) : charsValue (decChars n) = n := by
  unfold decChars
  rw [charsValue_reverse_map _ (decDigitsAux_lt n n)]
  exact decValue_decDigitsAux n n (Nat.le_refl n)

theorem decChars_ne_nil (k : Nat) (hk : 1 ≤ k) : decChars k ≠ [] := by
  obtain ⟨m, rfl⟩ : ∃ m, k = m + 1 := ⟨k - 1, by omega⟩
  unfold decChars
  rw [show decDigitsAux (m + 1) (m + 1) =
    ((m + 1) % 10) :: decDigitsAux m ((m + 1) / 10) from rfl]
  simp

theorem markScanAux_dollar_decChars (k : Nat) (hk : 1 ≤ k) (t : List Char) :
    markScanAux MSt.dollar (decChars k ++ t) = markScanAux (MSt.num k) t := by
  rcases hds : decChars k with _ | ⟨d, ds⟩
  · exact absurd hds (decChars_ne_nil k hk)
  · have hdig : ∀ c ∈ d :: ds, c.isDigit = true := by
      rw [← hds]
      exact decChars_isDigit k
    have hdd : d.isDigit = true := hdig d (List.mem_cons_self _ _)
    rw [List.cons_append, markScanAux_dollar_cons, if_pos hdd]
    rw [markScanAux_num_digits ds
      (fun c hc => hdig c (List.mem_cons_of_mem _ hc)) (charVal d) t]
    have hval : ds.foldl (fun x c => 10 * x + charVal c) (charVal d) = k := by
      have h0 : charsValue (d :: ds) = k := by rw [← hds, charsValue_decChars]
      have h1 : charsValue (d :: ds) =
          ds.foldl (fun x c => 10 * x + charVal c) (10 * 0 + charVal d) := rfl
      rw [show 10 * 0 + charVal d = charVal d by omega] at h1
      rw [← h1, h0]
    rw [hval]

theorem markScanAux_pieces (pieces : List Piece)
    (hw : ∀ pc ∈ pieces, MarkPieceWF pc) :
    markScanAux MSt.scan (renderPieces pieces) = pieceMarks pieces
    ∧ ∀ a, markScanAux (MSt.num a) (renderPieces pieces) =
        a :: pieceMarks pieces := by
  induction pieces with
  | nil => exact ⟨rfl, fun a => rfl⟩
  | cons pc rest ih =>
    have hwrest : ∀ x ∈ rest, MarkPieceWF x :=
      fun x hx => hw x (List.mem_cons_of_mem _ hx)
    have ih' := ih hwrest
    cases pc with
    | lit s =>
      obtain ⟨hds, hdig⟩ : '$' ∉ s ∧ ∀ c ∈ s.take 1, c.isDigit = false :=
        hw (Piece.lit s) (List.mem_cons_self _ _)
      have hrender : renderPieces (Piece.lit s :: rest) =
          s ++ renderPieces rest := by simp [renderPieces, Piece.render]
      have hmarks : pieceMarks (Piece.lit s :: rest) = pieceMarks rest := by
        simp [pieceMarks]
      rw [hrender, hmarks]
      constructor
      · rw [markScanAux_scan_skip s _ hds, ih'.1]
      · intro a
        cases s with
        | nil => simpa using ih'.2 a
        | cons c s' =>
          have hcd : c.isDigit = false := hdig c (by simp)
          have hc : c ≠ '$' :=
            fun he => hds (he ▸ List.mem_cons_self c s')
          rw [List.cons_append, markScanAux_num_cons,
            if_neg (by rw [hcd]; exact Bool.false_ne_true), if_neg hc]
          rw [markScanAux_scan_skip s' _
            (fun hmem => hds (List.mem_cons_of_mem _ hmem)), ih'.1]
    | fld q =>
      have hq : ∀ c ∈ q, isIdentChar c = true :=
        hw (Piece.fld q) (List.mem_cons_self _ _)
      have hnd : '$' ∉ q ++ [rbrace] := by
        intro hmem
        rcases List.mem_append.mp hmem with h | h
        · exact (identChar_ne '$' (hq '$' h)).2.2.2.2 rfl
        · exact absurd (List.mem_singleton.mp h) (by decide)
      have hrender : renderPieces (Piece.fld q :: rest) =
          lbrace :: ((q ++ [rbrace]) ++ renderPieces rest) := by
        simp [renderPieces, Piece.render]
      have hmarks : pieceMarks (Piece.fld q :: rest) = pieceMarks rest := by
        simp [pieceMarks]
      rw [hrender, hmarks]
      constructor
      · rw [markScanAux_scan_cons, if_neg (show lbrace ≠ '$' from by decide),
          markScanAux_scan_skip _ _ hnd, ih'.1]
      · intro a
        rw [markScanAux_num_cons,
          if_neg (show ¬(lbrace.isDigit = true) from by decide),
          if_neg (show lbrace ≠ '$' from by decide)]
        rw [markScanAux_scan_skip _ _ hnd, ih'.1]
    | mark k =>
      have hk : 1 ≤ k := hw (Piece.mark k) (List.mem_cons_self _ _)
      have hrender : renderPieces (Piece.mark k :: rest) =
          '$' :: (decChars k ++ renderPieces rest) := by
        simp [renderPieces, Piece.render]
      have hmarks : pieceMarks (Piece.mark k :: rest) =
          k :: pieceMarks rest := by simp [pieceMarks]
      rw [hrender, hmarks]
      constructor
      · rw [markScanAux_scan_cons, if_pos rfl,
          markScanAux_dollar_decChars k hk, ih'.2 k]
      · intro a
        rw [markScanAux_num_cons,
          if_neg (show ¬(('$' : Char).isDigit = true) from by decide),
          if_pos rfl]
        rw [markScanAux_dollar_decChars k hk, ih'.2 k]

theorem pieceMarks_final (chunks : List Chunk) (params : List (List Char))
    (hcomp : ∀ n ∈ chunkNames chunks, ∃ j, firstIdx params n 0 = some j) :
    pieceMarks ((chunks.map initPiece).map (loopPiece params 0)) =
      (chunkNames chunks).map fun n => (firstIdx params n 0).getD 0 + 1 := by
  induction chunks with
  | nil => rfl
  | cons c rest ih =>
    cases c with
    | lit s =>
      have := ih fun n hn => hcomp n hn
      simp only [List.map_cons]
      rw [show loopPiece params 0 (initPiece (Chunk.lit s)) =
        Piece.lit s from rfl]
      rw [show pieceMarks (Piece.lit s :: List.map (loopPiece params 0)
        (List.map initPiece rest)) = pieceMarks (List.map (loopPiece params 0)
        (List.map initPiece rest)) from by simp [pieceMarks]]
      exact this
    | field n =>
      rcases hcomp n (List.mem_cons_self _ _) with ⟨j, hj⟩
      have := ih fun m hm => hcomp m (List.mem_cons_of_mem _ hm)
      simp only [List.map_cons]
      rw [show loopPiece params 0 (initPiece (Chunk.field n)) =
        Piece.mark (0 + j + 1) from by rw [show initPiece (Chunk.field n) =
          Piece.fld n from rfl, loopPiece_fld, hj]]
      rw [show pieceMarks (Piece.mark (0 + j + 1) ::
        List.map (loopPiece params 0) (List.map initPiece rest)) =
        (0 + j + 1) :: pieceMarks (List.map (loopPiece params 0)
          (List.map initPiece rest)) from by simp [pieceMarks]]
      rw [this, show chunkNames (Chunk.field n :: rest) =
        n :: chunkNames rest from rfl, List.map_cons, hj]
      congr 1
      simp

theorem loopPiece_markWF (params : List (List Char)) (c : Chunk)
    (hc : c.wf) : MarkPieceWF (loopPiece params 0 (initPiece c)) := by
  cases c with
  | lit s =>
    exact ⟨hc.2.2.1, hc.2.2.2⟩
  | field n =>
    rw [show initPiece (Chunk.field n) = Piece.fld n from rfl, loopPiece_fld]
    cases hj : firstIdx params n 0 with
    | none => exact hc.2
    | some j => show 1 ≤ 0 + j + 1; omega

/-! ## Heap and router-merge lemmas -/

theorem ListHeap.length_write (h : ListHeap) (r : Nat) (v : List Nat) :
    (h.write r v).cells.length = h.cells.length := by
  simp [ListHeap.write]

theorem ListHeap.read_write_self (h : ListHeap) (r : Nat) (v : List Nat)
    (hr : r < h.cells.length) : (h.write r v).read r = v := by
  unfold ListHeap.write ListHeap.read
  simp only [List.getD_eq_getElem?_getD]
  rw [List.getElem?_set_self]
  · simp
  · exact hr

theorem ListHeap.read_write_ne (h : ListHeap) (r r' : Nat) (v : List Nat)
    (hne : r' ≠ r) : (h.write r v).read r' = h.read r' := by
  unfold ListHeap.write ListHeap.read
  simp only [List.getD_eq_getElem?_getD]
  rw [List.getElem?_set_ne (fun he => hne he.symm)]

theorem ListHeap.length_alloc (h : ListHeap) (v : List Nat) :
    (h.alloc v).1.cells.length = h.cells.length + 1 := by
  simp [ListHeap.alloc]

theorem ListHeap.read_alloc (h : ListHeap) (v : List Nat) (r : Nat)
    (hr : r < h.cells.length) : (h.alloc v).1.read r = h.read r := by
  unfold ListHeap.alloc ListHeap.read
  exact List.getD_append _ _ _ _ hr

theorem includeStep_length (h : ListHeap) (t : ListenerTable) (event : String)
    (r : Nat) : h.cells.length ≤ (includeStep h t event r).1.cells.length := by
  unfold includeStep
  cases pyDictGet? t event with
  | none => exact Nat.le_refl _
  | some cr => simp [ListHeap.alloc]

theorem includeStep_read (h : ListHeap) (t : ListenerTable) (event : String)
    (r x : Nat) (hx : x < h.cells.length) :
    (includeStep h t event r).1.read x = h.read x := by
  unfold includeStep
  cases pyDictGet? t event with
  | none => rfl
  | some cr => exact ListHeap.read_alloc h _ x hx

theorem includeStep_get_ne (h : ListHeap) (t : ListenerTable)
    (event other : String) (r : Nat) (hne : other ≠ event) :
    pyDictGet? (includeStep h t event r).2 other = pyDictGet? t other := by
  unfold includeStep
  cases pyDictGet? t event with
  | none => exact pyDictGet?_pyDictSet_ne t event other r (fun he => hne he.symm)
  | some cr => exact pyDictGet?_pyDictSet_ne t event other _ (fun he => hne he.symm)

theorem includeRouter_length (router : ListenerTable) (h : ListHeap)
    (client : ListenerTable) :
    h.cells.length ≤ (includeRouter h client router).1.cells.length := by
  induction router generalizing h client with
  | nil => exact Nat.le_refl _
  | cons p rest ih =>
    obtain ⟨event, r⟩ := p
    exact Nat.le_trans (includeStep_length h client event r)
      (ih (includeStep h client event r).1 (includeStep h client event r).2)

theorem includeRouter_read (router : ListenerTable) (h : ListHeap)
    (client : ListenerTable) (x : Nat) (hx : x < h.cells.length) :
    (includeRouter h client router).1.read x = h.read x := by
  induction router generalizing h client with
  | nil => rfl
  | cons p rest ih =>
    obtain ⟨event, r⟩ := p
    calc (includeRouter (includeStep h client event r).1
          (includeStep h client event r).2 rest).1.read x
        = (includeStep h client event r).1.read x :=
          ih _ _ (Nat.lt_of_lt_of_le hx (includeStep_length h client event r))
      _ = h.read x := includeStep_read h client event r x hx

theorem includeRouter_get_absent (router : ListenerTable) (h : ListHeap)
    (client : ListenerTable) (event : String)
    (habs : ∀ p ∈ router, p.1 ≠ event) :
    pyDictGet? (includeRouter h client router).2 event =
      pyDictGet? client event := by
  induction router generalizing h client with
  | nil => rfl
  | cons p rest ih =>
    obtain ⟨k, r⟩ := p
    calc pyDictGet? (includeRouter (includeStep h client k r).1
          (includeStep h client k r).2 rest).2 event
        = pyDictGet? (includeStep h client k r).2 event :=
          ih _ _ fun q hq => habs q (List.mem_cons_of_mem _ hq)
      _ = pyDictGet? client event :=
          includeStep_get_ne h client k event r
            (fun he => habs (k, r) (List.mem_cons_self _ _) he.symm)

theorem pyDictGet?_append_absent {α : Type} (pre rest : List (String × α))
    (event : String) (habs : ∀ p ∈ pre, p.1 ≠ event) :
    pyDictGet? (pre ++ rest) event = pyDictGet? rest event := by
  induction pre with
  | nil => rfl
  | cons p pre' ih =>
    obtain ⟨k, v⟩ := p
    have hk : k ≠ event := habs (k, v) (List.mem_cons_self _ _)
    show (if k = event then some v else pyDictGet? (pre' ++ rest) event) = _
    rw [if_neg hk]
    exact ih fun q hq => habs q (List.mem_cons_of_mem _ hq)

/-! ## Notification-loop lemmas -/

theorem subscribedAfter_append (xs ys : List LEvent) (s : List String) :
    subscribedAfter (xs ++ ys) s = subscribedAfter ys (subscribedAfter xs s) := by
  simp [subscribedAfter, List.foldl_append]

theorem subscribedAfter_no_sub (tr : List LEvent) (s : List String)
    (h : ∀ e ∈ tr, isSubCmd e = false) : subscribedAfter tr s = s := by
  induction tr generalizing s with
  | nil => rfl
  | cons e rest ih =>
    have hstep : subscribedStep s e = s := by
      cases e with
      | listenCmd c => exact absurd (h _ (List.mem_cons_self _ _)) (by simp [isSubCmd])
      | unlistenCmd c => exact absurd (h _ (List.mem_cons_self _ _)) (by simp [isSubCmd])
      | commitTx => rfl
      | closeCursor => rfl
      | invoke i v => rfl
      | invokePipe i c v => rfl
    calc subscribedAfter (e :: rest) s = subscribedAfter rest (subscribedStep s e) := rfl
      _ = subscribedAfter rest s := by rw [hstep]
      _ = s := ih s fun e' he' => h e' (List.mem_cons_of_mem _ he')

theorem mem_subscribedAfter_listen (chans : List String) (s : List String)
    (x : String) (hx : x ∈ subscribedAfter (chans.map LEvent.listenCmd) s) :
    x ∈ s ∨ x ∈ chans := by
  induction chans generalizing s with
  | nil => exact Or.inl hx
  | cons c cs ih =>
    have hx' : x ∈ subscribedAfter (cs.map LEvent.listenCmd)
        (subscribedStep s (LEvent.listenCmd c)) := hx
    rcases ih _ hx' with h | h
    · by_cases hc : c ∈ s
      · simp only [subscribedStep, if_pos hc] at h
        exact Or.inl h
      · simp only [subscribedStep, if_neg hc, List.mem_append,
          List.mem_singleton] at h
        rcases h with h | h
        · exact Or.inl h
        · exact Or.inr (by simp [h])
    · exact Or.inr (List.mem_cons_of_mem _ h)

theorem mem_subscribedAfter_unlisten (chans : List String) (s : List String)
    (x : String) :
    x ∈ subscribedAfter (chans.map LEvent.unlistenCmd) s ↔
      x ∈ s ∧ x ∉ chans := by
  induction chans generalizing s with
  | nil => simp [subscribedAfter]
  | cons c cs ih =>
    have : subscribedAfter ((c :: cs).map LEvent.unlistenCmd) s =
        subscribedAfter (cs.map LEvent.unlistenCmd) (s.filter (· ≠ c)) := rfl
    rw [this, ih]
    simp only [List.mem_filter, decide_eq_true_eq, List.mem_cons]
    tauto

theorem isSubCmd_callListener (l : Listener) (payload : String) :
    ∀ e ∈ (callListener l payload).1, isSubCmd e = false := by
  intro e he
  unfold callListener at he
  cases hl : loads payload <;>
    simp only [hl, List.mem_singleton, List.mem_cons, List.not_mem_nil,
      or_false] at he
  · subst he
    rfl
  · rename_i v
    cases hb : l.behave v <;>
      simp only [hb, List.mem_singleton, List.mem_cons, List.not_mem_nil,
        or_false] at he
    · subst he
      rfl
    · rename_i exc
      cases exc <;>
        simp only [List.mem_singleton, List.mem_cons, List.not_mem_nil,
          or_false] at he <;>
        first
          | (subst he; rfl)
          | (rcases he with he | he <;> (subst he; rfl))

theorem isSubCmd_runListeners (payload : String) (ls : List Listener) :
    ∀ e ∈ (runListeners payload ls).1, isSubCmd e = false := by
  induction ls with
  | nil => intro e he; simp [runListeners] at he
  | cons l rest ih =>
    intro e he
    unfold runListeners at he
    rcases hc : callListener l payload with ⟨tr, exc⟩
    rw [hc] at he
    have htr : ∀ e ∈ tr, isSubCmd e = false := by
      have := isSubCmd_callListener l payload
      rw [hc] at this
      exact this
    cases exc with
    | none =>
      simp only [List.mem_append] at he
      rcases he with h | h
      · exact htr e h
      · exact ih e h
    | some e' => exact htr e he

theorem isSubCmd_runPipes (channel payload : String) (ps : List PipeListener) :
    ∀ e ∈ (runPipes channel payload ps).1, isSubCmd e = false := by
  induction ps with
  | nil => intro e he; simp [runPipes] at he
  | cons p rest ih =>
    intro e he
    unfold runPipes at he
    cases hb : p.behave channel (PyVal.str payload) <;> rw [hb] at he
    · simp only [List.mem_cons] at he
      rcases he with he | he
      · subst he; rfl
      · exact ih e he
    · simp only [List.mem_singleton] at he
      subst he
      rfl

theorem isSubCmd_dispatchOne (listeners : List (String × List Listener))
    (pipes : List PipeListener) (channel payload : String) :
    ∀ e ∈ (dispatchOne listeners pipes channel payload).1, isSubCmd e = false := by
  intro e he
  unfold dispatchOne at he
  rcases hr : runListeners payload ((pyDictGet? listeners channel).getD []) with
    ⟨tr, exc⟩
  rw [hr] at he
  have htr : ∀ x ∈ tr, isSubCmd x = false := by
    have := isSubCmd_runListeners payload ((pyDictGet? listeners channel).getD [])
    rw [hr] at this
    exact this
  cases exc with
  | none =>
    simp only [List.mem_append] at he
    rcases he with h | h
    · exact htr e h
    · exact isSubCmd_runPipes channel payload pipes e h
  | some e' => exact htr e he

theorem isSubCmd_runLoop (listeners : List (String × List Listener))
    (pipes : List PipeListener) (stream : List (String × String)) :
    ∀ e ∈ (runLoop listeners pipes stream).1, isSubCmd e = false := by
  induction stream with
  | nil => intro e he; simp [runLoop] at he
  | cons n rest ih =>
    intro e he
    obtain ⟨channel, payload⟩ := n
    unfold runLoop at he
    rcases hd : dispatchOne listeners pipes channel payload with ⟨tr, exc⟩
    rw [hd] at he
    have htr : ∀ x ∈ tr, isSubCmd x = false := by
      have := isSubCmd_dispatchOne listeners pipes channel payload
      rw [hd] at this
      exact this
    cases exc with
    | none =>
      simp only [List.mem_append] at he
      rcases he with h | h
      · exact htr e h
      · exact ih e h
    | some e' => exact htr e he

theorem runListeners_no_raise (payload : String) (ls : List Listener)
    (h : ∀ l ∈ ls, ∀ v, l.behave v = Option.none) :
    runListeners payload ls =
      (ls.map fun l => LEvent.invoke l.id (decodedPayload payload),
        Option.none) := by
  induction ls with
  | nil => rfl
  | cons l rest ih =>
    have hl : ∀ v, l.behave v = Option.none :=
      h l (List.mem_cons_self _ _)
    have hcall : callListener l payload =
        ([LEvent.invoke l.id (decodedPayload payload)], Option.none) := by
      unfold callListener decodedPayload
      cases hj : loads payload
      · simp [hl]
      · simp [hl]
    unfold runListeners
    rw [hcall, ih fun l' hl' => h l' (List.mem_cons_of_mem _ hl')]
    simp

theorem runPipes_no_raise (channel payload : String) (ps : List PipeListener)
    (h : ∀ p ∈ ps, ∀ ch v, p.behave ch v = Option.none) :
    runPipes channel payload ps =
      (ps.map fun p => LEvent.invokePipe p.id channel (PyVal.str payload),
        Option.none) := by
  induction ps with
  | nil => rfl
  | cons p rest ih =>
    unfold runPipes
    rw [h p (List.mem_cons_self _ _) channel (PyVal.str payload),
      ih fun p' hp' => h p' (List.mem_cons_of_mem _ hp')]
    rfl

theorem runListeners_raises (payload : String) (pre post : List Listener)
    (bad : Listener) (e : PyException)
    (hpre : ∀ l ∈ pre, ∀ v, l.behave v = Option.none)
    (hbad : bad.behave (decodedPayload payload) = some e)
    (hjson : e ≠ PyException.jsonDecodeError) :
    runListeners payload (pre ++ bad :: post) =
      ((pre.map fun l => LEvent.invoke l.id (decodedPayload payload))
          ++ [LEvent.invoke bad.id (decodedPayload payload)],
        some e) := by
  induction pre with
  | nil =>
    have hcall : callListener bad payload =
        ([LEvent.invoke bad.id (decodedPayload payload)], some e) := by
      unfold callListener decodedPayload
      unfold decodedPayload at hbad
      cases hj : loads payload <;> simp only [hj] at hbad ⊢
      · rw [hbad]
      · rw [hbad]
        cases e with
        | jsonDecodeError => exact absurd rfl hjson
        | psycopgError => rfl
        | typeError => rfl
        | other n => rfl
    show runListeners payload (bad :: post) = _
    unfold runListeners
    rw [hcall]
    rfl
  | cons l rest ih =>
    have hl : ∀ v, l.behave v = Option.none := hpre l (List.mem_cons_self _ _)
    have hcall : callListener l payload =
        ([LEvent.invoke l.id (decodedPayload payload)], Option.none) := by
      unfold callListener decodedPayload
      cases hj : loads payload
      · simp [hl]
      · simp [hl]
    show runListeners payload (l :: (rest ++ bad :: post)) = _
    unfold runListeners
    rw [hcall, ih fun l' hl' => hpre l' (List.mem_cons_of_mem _ hl')]
    simp

/-! ## Claim C1: the result shaper -/

/-- C1 (counterexample): the claim asserts that, with a non-empty column list,
zero rows yield `None`.  On zero rows with one column, `_query` takes the
`len(rows) == 1` else-branch and builds `[row[0] for row in rows]`, the empty
Python list — not `None`. -/
theorem C1_shape_zero_rows_counterexample :
    shapeOutput ["n"] [] = PyVal.list [] ∧ PyVal.list [] ≠ PyVal.none :=
  ⟨rfl, fun h => PyVal.noConfusion h⟩

/-- C1 (amended): the result shaper is deterministic by cardinality, with the
zero-row case corrected.  For every result set with a non-empty column list:
zero rows yield the empty Python list; one row with one column yields the
single scalar value; one row with several columns yields the single
column-name-to-value mapping; any other row count with one column yields the
ordered list of first-column values; any other row count with several columns
yields the ordered list of column-name-to-value mappings, preserving row
order. -/
theorem C1_shape_by_cardinality (description : List String)
    (rows : List (List PyVal)) (hd : description ≠ []) :
    (rows = [] → shapeOutput description rows = PyVal.list [])
    ∧ (∀ row, rows = [row] → description.length = 1 →
        shapeOutput description rows = row.headD PyVal.none)
    ∧ (∀ row, rows = [row] → 1 < description.length →
        shapeOutput description rows = PyVal.dict (rowToDict description row))
    ∧ (rows.length ≠ 1 → description.length = 1 →
        shapeOutput description rows =
          PyVal.list (rows.map fun row => row.headD PyVal.none))
    ∧ (rows.length ≠ 1 → 1 < description.length →
        shapeOutput description rows =
          PyVal.list (rows.map fun row => PyVal.dict (rowToDict description row))) := by
  have hne : ¬ description.isEmpty := by
    cases description with
    | nil => exact absurd rfl hd
    | cons a l => simp [List.isEmpty]
  refine ⟨?_, ?_, ?_, ?_, ?_⟩
  · rintro rfl
    by_cases h1 : description.length = 1 <;>
      simp [shapeOutput, hne, h1]
  · rintro row rfl h1
    simp [shapeOutput, hne, h1]
  · rintro row rfl h1
    simp [shapeOutput, hne, Nat.ne_of_gt h1]
  · intro hn h1
    simp [shapeOutput, hne, hn, h1]
  · intro hn h1
    simp [shapeOutput, hne, hn, Nat.ne_of_gt h1]

/-- C1 (witness): the amended theorem applied to the spec's own two-row,
two-column example. -/
theorem C1_shape_by_cardinality_witness :
    shapeOutput ["a", "b"]
        [[PyVal.int 1, PyVal.str "x"], [PyVal.int 2, PyVal.str "y"]] =
      PyVal.list
        [PyVal.dict [("a", PyVal.int 1), ("b", PyVal.str "x")],
         PyVal.dict [("a", PyVal.int 2), ("b", PyVal.str "y")]] := by
  have h :=
    (C1_shape_by_cardinality ["a", "b"]
        [[PyVal.int 1, PyVal.str "x"], [PyVal.int 2, PyVal.str "y"]]
        (by decide)).2.2.2.2 (by decide) (by decide)
  rw [h]
  rfl

/-! ## Claim C2: the placeholder compiler -/

/-- C2 (counterexample): on the template `SELECT {a:3}` — a placeholder with
a format spec — `_process_query` collects the parameter `a` (so the EXECUTE
argument list has one slot), but `str.replace` looks for the literal `{a}`,
which does not occur, so the rewritten text is unchanged and contains zero
positional markers: 0 ≠ 1 distinct parameter names, refuting the claimed
invariant for this template. -/
theorem C2_format_spec_counterexample :
    processQuery "SELECT \x7ba:3\x7d".data =
        some ([['a']], "SELECT \x7ba:3\x7d".data)
    ∧ markersOf "SELECT \x7ba:3\x7d".data = []
    ∧ ([] : List Nat).length ≠ [['a']].length :=
  ⟨rfl, rfl, by decide⟩

/-- C2 (amended): the claim holds for templates whose placeholders are all
simple — every placeholder occurrence is written exactly `{name}` with a
non-empty identifier name, and the literal text between placeholders
contains no brace or dollar character and does not begin with a digit.  For
every such template, compiling collects the distinct placeholder names in
first-occurrence order (one slot per name), the rewritten text is exactly
the template with every occurrence of each `{name}` replaced by `$k` for
that name's 1-based index `k` in the deduplicated order (repeated
occurrences map to the same marker), and the positional markers occurring in
the rewritten text are exactly the values `1..N` for `N` distinct parameter
names — no gaps and no others. -/
theorem C2_compile_characterization (chunks : List Chunk)
    (hwf : ∀ c ∈ chunks, c.wf) :
    processQuery (renderTemplate chunks) =
        some (dedupFirst (chunkNames chunks), expectedRewrite chunks)
    ∧ ∀ k, k ∈ markersOf (expectedRewrite chunks) ↔
        (1 ≤ k ∧ k ≤ (dedupFirst (chunkNames chunks)).length) := by
  have hnames_ne : ∀ n ∈ chunkNames chunks, n ≠ [] :=
    fun n hn => (hwf (Chunk.field n) (mem_chunkNames chunks n hn)).1
  have hnames_id : ∀ n ∈ chunkNames chunks, ∀ c ∈ n, isIdentChar c = true :=
    fun n hn => (hwf (Chunk.field n) (mem_chunkNames chunks n hn)).2
  have hparams_id : ∀ p ∈ dedupFirst (chunkNames chunks), ∀ c ∈ p,
      isIdentChar c = true :=
    fun p hp => hnames_id p ((mem_dedupFirst _ p).mp hp)
  have hinit_wf : ∀ pc ∈ chunks.map initPiece, PieceWF pc := by
    intro pc hpc
    rcases List.mem_map.mp hpc with ⟨c, hc, rfl⟩
    exact initPiece_wf c (hwf c hc)
  have hfilter : (chunkNames chunks).filter (fun n => n ≠ []) =
      chunkNames chunks :=
    List.filter_eq_self.mpr fun a ha => by simpa using hnames_ne a ha
  constructor
  · unfold processQuery
    rw [fieldNames_template chunks hwf]
    simp only [hfilter]
    rw [renderTemplate_eq_pieces chunks,
      rewriteLoop_pieces (dedupFirst (chunkNames chunks)) 0
        (chunks.map initPiece) hparams_id hinit_wf]
    rfl
  · intro k
    have hcomp : ∀ n ∈ chunkNames chunks, ∃ j,
        firstIdx (dedupFirst (chunkNames chunks)) n 0 = some j := by
      intro n hn
      rcases firstIdx_mem (dedupFirst (chunkNames chunks)) n
        ((mem_dedupFirst _ n).mpr hn) with ⟨j, hj, -⟩
      exact ⟨j, hj⟩
    have hmwf : ∀ pc ∈ (chunks.map initPiece).map
        (loopPiece (dedupFirst (chunkNames chunks)) 0), MarkPieceWF pc := by
      intro pc hpc
      rcases List.mem_map.mp hpc with ⟨pc0, hpc0, rfl⟩
      rcases List.mem_map.mp hpc0 with ⟨c, hc, rfl⟩
      exact loopPiece_markWF _ c (hwf c hc)
    have hm : markersOf (expectedRewrite chunks) =
        (chunkNames chunks).map fun n =>
          (firstIdx (dedupFirst (chunkNames chunks)) n 0).getD 0 + 1 := by
      unfold markersOf expectedRewrite
      rw [(markScanAux_pieces _ hmwf).1]
      exact pieceMarks_final chunks _ hcomp
    rw [hm]
    constructor
    · intro hk
      rcases List.mem_map.mp hk with ⟨n, hn, rfl⟩
      rcases firstIdx_mem (dedupFirst (chunkNames chunks)) n
        ((mem_dedupFirst _ n).mpr hn) with ⟨j, hj, hlt⟩
      rw [hj]
      constructor
      · simp
      · simp only [Option.getD]
        omega
    · rintro ⟨hk1, hk2⟩
      have hlt : k - 1 < (dedupFirst (chunkNames chunks)).length := by omega
      have hpmem : (dedupFirst (chunkNames chunks)).get ⟨k - 1, hlt⟩ ∈
          dedupFirst (chunkNames chunks) :=
        List.get_mem _ _ _
      have hpnames : (dedupFirst (chunkNames chunks)).get ⟨k - 1, hlt⟩ ∈
          chunkNames chunks := (mem_dedupFirst _ _).mp hpmem
      have hidx := firstIdx_self (dedupFirst (chunkNames chunks))
        (nodup_dedupFirstAux (chunkNames chunks) []) (k - 1) hlt
      refine List.mem_map.mpr ⟨_, hpnames, ?_⟩
      rw [hidx]
      simp only [Option.getD]
      omega

/-- C2 (witness): the amended theorem on the spec's `[a, b, a, c]` example
template `{a} {b} {a} {c}`: parameters `[a, b, c]`, rewrite `$1 $2 $1 $3`,
marker values exactly `{1, 2, 3}`. -/
theorem C2_compile_characterization_witness :
    processQuery (renderTemplate [Chunk.field ['a'], Chunk.lit [' '],
        Chunk.field ['b'], Chunk.lit [' '], Chunk.field ['a'],
        Chunk.lit [' '], Chunk.field ['c']]) =
      some ([['a'], ['b'], ['c']],
        expectedRewrite [Chunk.field ['a'], Chunk.lit [' '],
          Chunk.field ['b'], Chunk.lit [' '], Chunk.field ['a'],
          Chunk.lit [' '], Chunk.field ['c']])
    ∧ 3 ∈ markersOf (expectedRewrite [Chunk.field ['a'], Chunk.lit [' '],
        Chunk.field ['b'], Chunk.lit [' '], Chunk.field ['a'],
        Chunk.lit [' '], Chunk.field ['c']])
    ∧ 5 ∉ markersOf (expectedRewrite [Chunk.field ['a'], Chunk.lit [' '],
        Chunk.field ['b'], Chunk.lit [' '], Chunk.field ['a'],
        Chunk.lit [' '], Chunk.field ['c']]) := by
  have h := C2_compile_characterization [Chunk.field ['a'], Chunk.lit [' '],
    Chunk.field ['b'], Chunk.lit [' '], Chunk.field ['a'], Chunk.lit [' '],
    Chunk.field ['c']] (by decide)
  refine ⟨?_, ?_, ?_⟩
  · rw [h.1]
    rfl
  · exact (h.2 3).mpr (by decide)
  · intro hmem
    have hb := (h.2 5).mp hmem
    revert hb
    decide

/-! ## Claim C3: duplicate registration -/

/-- C3 (counterexample): registering a second query text under the identifier
`"A"` does not fail — `include_queries` performs a bare dict assignment — and
the stored query is the second one, so the first registration is lost rather
than intact. -/
theorem C3_duplicate_overwrites_counterexample :
    includeQueryEntry [("A", "SELECT 1;")] "A" "SELECT 2;" =
        [("A", "SELECT 2;")]
    ∧ pyDictGet? (includeQueryEntry [("A", "SELECT 1;")] "A" "SELECT 2;") "A" =
        some "SELECT 2;"
    ∧ ("SELECT 2;" : String) ≠ "SELECT 1;" :=
  ⟨rfl, rfl, by decide⟩

/-- C3 (amended): registering a second query under a name already present in
the registry raises no error and silently replaces the first registration
with the new query; entries under other names are unchanged. -/
theorem C3_duplicate_registration (queries : List (String × String))
    (identifier raw₀ raw : String)
    (_h : pyDictGet? queries identifier = some raw₀) :
    pyDictGet? (includeQueryEntry queries identifier raw) identifier = some raw
    ∧ ∀ other, other ≠ identifier →
        pyDictGet? (includeQueryEntry queries identifier raw) other =
          pyDictGet? queries other := by
  refine ⟨pyDictGet?_pyDictSet_self queries identifier raw, ?_⟩
  intro other hother
  exact pyDictGet?_pyDictSet_ne queries identifier other raw (fun hk => hother hk.symm)

/-- C3 (witness): the amended theorem applied to a concrete registry. -/
theorem C3_duplicate_registration_witness :
    pyDictGet?
        (includeQueryEntry [("A", "SELECT 1;"), ("B", "SELECT 3;")] "A"
          "SELECT 2;") "A" = some "SELECT 2;"
    ∧ pyDictGet?
        (includeQueryEntry [("A", "SELECT 1;"), ("B", "SELECT 3;")] "A"
          "SELECT 2;") "B" = some "SELECT 3;" := by
  have h :=
    C3_duplicate_registration [("A", "SELECT 1;"), ("B", "SELECT 3;")] "A"
      "SELECT 1;" "SELECT 2;" (by decide)
  exact ⟨h.1, by rw [h.2 "B" (by decide)]; rfl⟩

/-! ## Claim C4: prepare failures during start -/

/-- C4 (counterexample): a query whose `PREPARE` fails during `start` does not
surface any error — `_execute` catches the psycopg `Error`, rolls back, and
`_prepare` completes with `Except.ok`, so no exception reaches the caller of
`start`. -/
theorem C4_prepare_error_swallowed_counterexample :
    prepareAll [("PREPARE q AS SELECT $1;", DriverOutcome.error)] =
        ([DBAction.execute "PREPARE q AS SELECT $1;", DBAction.rollback],
          Except.ok ())
    ∧ ∀ e : PyException,
        (prepareAll [("PREPARE q AS SELECT $1;", DriverOutcome.error)]).2 ≠
          Except.error e :=
  ⟨rfl, fun _ h => Except.noConfusion h⟩

/-- C4 (amended): startup never fails on prepare errors.  For every list of
registered queries and every pattern of driver outcomes, the prepare loop run
by `start` finishes with `Except.ok` (no propagated exception); each failing
query's statement is followed by a rollback and never committed, so the
server-side statement does not come into existence and the query stays
unprepared. -/
theorem C4_prepare_failure_is_swallowed
    (queries : List (String × DriverOutcome)) :
    (prepareAll queries).2 = Except.ok ()
    ∧ (prepareAll queries).1 =
        (queries.map fun qo => (executeStatement qo.1 qo.2).1).flatten
    ∧ ∀ q o, (q, o) ∈ queries → o = DriverOutcome.error →
        executeStatement q o =
          ([DBAction.execute q, DBAction.rollback], Except.ok false) := by
  refine ⟨?_, ?_, ?_⟩
  · induction queries with
    | nil => rfl
    | cons qo rest ih =>
      obtain ⟨q, o⟩ := qo
      cases o <;>
        simpa [prepareAll, executeStatement, connectionExecute] using ih
  · induction queries with
    | nil => rfl
    | cons qo rest ih =>
      obtain ⟨q, o⟩ := qo
      cases o <;>
        simpa [prepareAll, executeStatement, connectionExecute] using ih
  · intro q o hmem ho
    subst ho
    rfl

/-- C4 (witness): the amended theorem applied to a two-query registry whose
second query fails to prepare. -/
theorem C4_prepare_failure_is_swallowed_witness :
    (prepareAll [("P1", DriverOutcome.ok), ("P2", DriverOutcome.error)]).2 =
        Except.ok ()
    ∧ executeStatement "P2" DriverOutcome.error =
        ([DBAction.execute "P2", DBAction.rollback], Except.ok false) := by
  have h :=
    C4_prepare_failure_is_swallowed
      [("P1", DriverOutcome.ok), ("P2", DriverOutcome.error)]
  exact ⟨h.1, h.2.2 "P2" DriverOutcome.error (by simp) rfl⟩

/-! ## Claim C8: soft-failing query execution -/

/-- C8: for every prepared query (its parameter list and `EXECUTE` text) and
every argument map, a driver error raised inside `cursor.execute` is caught:
the transaction is rolled back, no commit happens, and the call returns
Python `None` instead of propagating the exception. -/
theorem C8_query_soft_fail (parameters : List String) (text : String)
    (data : List (String × PyVal)) (outcome : QueryOutcome)
    (h : outcome = QueryOutcome.error) :
    queryExecuteRun parameters text data outcome =
      ([DBAction.query text (bindArguments parameters data), DBAction.rollback],
        Except.ok PyVal.none) := by
  subst h
  rfl

/-- C8 (witness): a failing execution of a one-parameter query returns `None`
after a rollback. -/
theorem C8_query_soft_fail_witness :
    queryExecuteRun ["id"] "EXECUTE q(%(id)s);" [("id", PyVal.int 7)]
        QueryOutcome.error =
      ([DBAction.query "EXECUTE q(%(id)s);" [("id", PyVal.int 7)],
          DBAction.rollback],
        Except.ok PyVal.none) :=
  C8_query_soft_fail ["id"] "EXECUTE q(%(id)s);" [("id", PyVal.int 7)]
    QueryOutcome.error rfl

/-! ## Claim C5: payload decoding and dispatch order -/

/-- C5 (counterexample): on the spec's own example — channel `orders`,
payload `{"id":1}` — the payload is valid JSON decoding to the mapping
`{"id": 1}`, yet the pipe callback receives the raw payload string, not the
decoded mapping the claim promises: `_listen` runs
`await pipe(notify.channel, notify.payload)`. -/
theorem C5_pipe_raw_payload_counterexample :
    loads "\x7b\"id\":1\x7d" = some (PyVal.dict [("id", PyVal.int 1)])
    ∧ pipeArgs (listenRun [("orders", [⟨1, fun _ => Option.none⟩])]
          [⟨2, fun _ _ => Option.none⟩] [("orders", "\x7b\"id\":1\x7d")]).1 =
        [PyVal.str "\x7b\"id\":1\x7d"]
    ∧ PyVal.str "\x7b\"id\":1\x7d" ≠ PyVal.dict [("id", PyVal.int 1)] :=
  ⟨rfl, rfl, fun h => PyVal.noConfusion h⟩

/-- C5 (amended): for every received notification, when no callback raises,
every callback registered for the channel is invoked in registration order
with the decoded value when the payload is valid JSON and with the raw text
otherwise (never raising for a malformed payload), and then every pipe
callback is invoked in registration order — but pipes always receive the raw
payload text, decoded or not. -/
theorem C5_dispatch_order_and_args (listeners : List (String × List Listener))
    (pipes : List PipeListener) (channel payload : String)
    (hl : ∀ l ∈ (pyDictGet? listeners channel).getD [], ∀ v,
      l.behave v = Option.none)
    (hp : ∀ p ∈ pipes, ∀ ch v, p.behave ch v = Option.none) :
    dispatchOne listeners pipes channel payload =
      ((((pyDictGet? listeners channel).getD []).map fun l =>
            LEvent.invoke l.id (decodedPayload payload))
          ++ pipes.map fun p => LEvent.invokePipe p.id channel (PyVal.str payload),
        Option.none) := by
  unfold dispatchOne
  rw [runListeners_no_raise payload _ hl,
    runPipes_no_raise channel payload pipes hp]

/-- C5 (witness): the amended theorem at the spec's example — the channel
listener receives the decoded mapping, the pipe receives the raw string. -/
theorem C5_dispatch_order_and_args_witness :
    dispatchOne [("orders", [⟨1, fun _ => Option.none⟩])]
        [⟨2, fun _ _ => Option.none⟩] "orders" "\x7b\"id\":1\x7d" =
      ([LEvent.invoke 1 (PyVal.dict [("id", PyVal.int 1)]),
          LEvent.invokePipe 2 "orders" (PyVal.str "\x7b\"id\":1\x7d")],
        Option.none) := by
  have h := C5_dispatch_order_and_args
      [("orders", [⟨1, fun _ => Option.none⟩])]
      [⟨2, fun _ _ => Option.none⟩] "orders" "\x7b\"id\":1\x7d"
      (by
        intro l hmem v
        have hmem' : l ∈ [(⟨1, fun _ => Option.none⟩ : Listener)] := hmem
        rw [List.mem_singleton.mp hmem'])
      (by
        intro p hmem ch v
        have hmem' : p ∈ [(⟨2, fun _ _ => Option.none⟩ : PipeListener)] := hmem
        rw [List.mem_singleton.mp hmem'])
  rw [h]
  rfl

/-! ## Claim C6: no isolation of callback failures -/

/-- C6 (counterexample): with two listeners on channel `c`, the first raising
a non-`JSONDecodeError` exception, and two queued notifications, only the
first listener's invocation happens: the second listener never runs, the pipe
never runs, the second notification is never dispatched, and the exception
escapes the loop. -/
theorem C6_no_isolation_counterexample :
    runLoop
        [("c", [⟨1, fun _ => some (PyException.other 5)⟩,
          ⟨2, fun _ => Option.none⟩])]
        [⟨3, fun _ _ => Option.none⟩]
        [("c", "not-json"), ("c", "not-json")] =
      ([LEvent.invoke 1 (PyVal.str "not-json")], some (PyException.other 5))
    ∧ invokedIds (runLoop
        [("c", [⟨1, fun _ => some (PyException.other 5)⟩,
          ⟨2, fun _ => Option.none⟩])]
        [⟨3, fun _ _ => Option.none⟩]
        [("c", "not-json"), ("c", "not-json")]).1 = [1]
    ∧ (2 : Nat) ∉ [1] :=
  ⟨rfl, rfl, by decide⟩

/-- C6 (amended): callback failures are not isolated.  If a listener for the
notified channel raises any exception other than `JSONDecodeError` (the only
kind the per-listener `try` catches), the listeners before it having
returned normally, then only the earlier listeners and the raising listener
are invoked: the remaining listeners for that event do not run, no pipe
runs, no later queued event is dispatched, the exception escapes the loop —
and the `finally` block still unsubscribes every channel, commits and closes
the cursor. -/
theorem C6_listener_exception_aborts
    (listeners : List (String × List Listener)) (pipes : List PipeListener)
    (channel payload : String) (pre post : List Listener) (bad : Listener)
    (e : PyException) (rest : List (String × String))
    (hd : (pyDictGet? listeners channel).getD [] = pre ++ bad :: post)
    (hpre : ∀ l ∈ pre, ∀ v, l.behave v = Option.none)
    (hbad : bad.behave (decodedPayload payload) = some e)
    (hjson : e ≠ PyException.jsonDecodeError) :
    listenRun listeners pipes ((channel, payload) :: rest) =
      ((listeners.map fun ev => LEvent.listenCmd ev.1) ++ [LEvent.commitTx]
          ++ ((pre.map fun l => LEvent.invoke l.id (decodedPayload payload))
            ++ [LEvent.invoke bad.id (decodedPayload payload)])
          ++ ((listeners.map fun ev => LEvent.unlistenCmd ev.1)
            ++ [LEvent.commitTx, LEvent.closeCursor]),
        some e) := by
  have hloop : runLoop listeners pipes ((channel, payload) :: rest) =
      ((pre.map fun l => LEvent.invoke l.id (decodedPayload payload))
          ++ [LEvent.invoke bad.id (decodedPayload payload)],
        some e) := by
    unfold runLoop dispatchOne
    rw [hd, runListeners_raises payload pre post bad e hpre hbad hjson]
  unfold listenRun
  rw [hloop]

/-- C6 (witness): the amended theorem at a concrete two-listener channel with
a queued second notification. -/
theorem C6_listener_exception_aborts_witness :
    listenRun
        [("c", [⟨1, fun _ => some (PyException.other 5)⟩,
          ⟨2, fun _ => Option.none⟩])]
        [⟨3, fun _ _ => Option.none⟩]
        [("c", "not-json"), ("c", "not-json")] =
      ([LEvent.listenCmd "c", LEvent.commitTx,
          LEvent.invoke 1 (PyVal.str "not-json"),
          LEvent.unlistenCmd "c", LEvent.commitTx, LEvent.closeCursor],
        some (PyException.other 5)) := by
  have h := C6_listener_exception_aborts
      [("c", [⟨1, fun _ => some (PyException.other 5)⟩,
        ⟨2, fun _ => Option.none⟩])]
      [⟨3, fun _ _ => Option.none⟩] "c" "not-json" []
      [⟨2, fun _ => Option.none⟩] ⟨1, fun _ => some (PyException.other 5)⟩
      (PyException.other 5) [("c", "not-json")]
      rfl
      (by intro l hmem v; exact absurd hmem (List.not_mem_nil l))
      rfl
      (by intro hcontra; exact PyException.noConfusion hcontra)
  rw [h]
  rfl

/-! ## Claim C7: router inclusion is not a pure snapshot -/

theorem addListener_heap_cons_ne (h : ListHeap) (t : ListenerTable)
    (k : String) (r' : Nat) (event : String) (cb : Nat) (hk : k ≠ event) :
    (addListener h ((k, r') :: t) event cb).1 = (addListener h t event cb).1 := by
  unfold addListener
  rw [show pyDictGet? ((k, r') :: t) event = pyDictGet? t event by
    simp [pyDictGet?_cons, hk]]
  cases pyDictGet? t event with
  | some r0 => rfl
  | none => rfl

/-- C7 (counterexample): a router holding one listener (callback `10`) on
channel `a` is included into a client with no prior `a`-listeners; the
`else` branch of the merge binds the client's entry to the router's list
object itself.  `router.add_listener("a", 20)` afterwards appends to that
shared object, so the client's effective listener list for `a` changes from
`[10]` to `[10, 20]` — the later-added callback is visible to (and would be
invoked by) the client's dispatch. -/
theorem C7_late_add_visible_counterexample :
    effectiveListeners (mergedHeap ⟨[[10]]⟩ [] [("a", 0)])
        (mergedClient ⟨[[10]]⟩ [] [("a", 0)]) "a" = [10]
    ∧ effectiveListeners (heapAfterLateAdd ⟨[[10]]⟩ [] [("a", 0)] "a" 20)
        (mergedClient ⟨[[10]]⟩ [] [("a", 0)]) "a" = [10, 20]
    ∧ ([10, 20] : List Nat) ≠ [10] :=
  ⟨rfl, rfl, by decide⟩

/-- C7 (amended): router inclusion is a snapshot merge only for channels the
client already listens on.  Let a router bind `event` to list object `r`
(a valid reference, with `event` bound once).  After the router is included
in a client and `add_listener(event, cb)` then runs on the router:
if the client had an `event` entry at inclusion time, its effective listener
list is unchanged by the later addition (the merge made a fresh
concatenation); but if `event` was new to the client, the client's entry is
an alias of the router's list object, so the client's effective listener
list gains the later-added `cb`. -/
theorem C7_router_inclusion_alias (h : ListHeap) (client : ListenerTable)
    (pre post : ListenerTable) (event : String) (r cb : Nat)
    (hr : r < h.cells.length)
    (hpre : ∀ p ∈ pre, p.1 ≠ event)
    (hpost : ∀ p ∈ post, p.1 ≠ event) :
    (∀ cr, pyDictGet? client event = some cr →
      effectiveListeners
          (heapAfterLateAdd h client (pre ++ (event, r) :: post) event cb)
          (mergedClient h client (pre ++ (event, r) :: post)) event =
        effectiveListeners (mergedHeap h client (pre ++ (event, r) :: post))
          (mergedClient h client (pre ++ (event, r) :: post)) event)
    ∧ (pyDictGet? client event = Option.none →
      pyDictGet? (mergedClient h client (pre ++ (event, r) :: post)) event =
          some r
      ∧ effectiveListeners
            (heapAfterLateAdd h client (pre ++ (event, r) :: post) event cb)
            (mergedClient h client (pre ++ (event, r) :: post)) event =
          effectiveListeners (mergedHeap h client (pre ++ (event, r) :: post))
            (mergedClient h client (pre ++ (event, r) :: post)) event
            ++ [cb]) := by
  induction pre generalizing h client with
  | nil =>
    have hgetR : pyDictGet? ([] ++ (event, r) :: post) event = some r := by
      simp [pyDictGet?_cons]
    constructor
    · intro cr hcr
      have hstep : includeStep h client event r =
          ((h.alloc (h.read cr ++ h.read r)).1,
            pyDictSet client event h.cells.length) := by
        unfold includeStep
        rw [hcr]
        rfl
      have hMH : mergedHeap h client ([] ++ (event, r) :: post) =
          (includeRouter (h.alloc (h.read cr ++ h.read r)).1
            (pyDictSet client event h.cells.length) post).1 := by
        unfold mergedHeap
        show (includeRouter (includeStep h client event r).1
          (includeStep h client event r).2 post).1 = _
        rw [hstep]
      have hMC : mergedClient h client ([] ++ (event, r) :: post) =
          (includeRouter (h.alloc (h.read cr ++ h.read r)).1
            (pyDictSet client event h.cells.length) post).2 := by
        unfold mergedClient
        show (includeRouter (includeStep h client event r).1
          (includeStep h client event r).2 post).2 = _
        rw [hstep]
      have hbind : pyDictGet? (mergedClient h client ([] ++ (event, r) :: post))
          event = some h.cells.length := by
        rw [hMC, includeRouter_get_absent post _ _ event hpost,
          pyDictGet?_pyDictSet_self]
      have hnr : h.cells.length <
          (h.alloc (h.read cr ++ h.read r)).1.cells.length := by
        rw [ListHeap.length_alloc]
        exact Nat.lt_succ_self _
      have hne : h.cells.length ≠ r := fun he => absurd (he ▸ hr)
        (Nat.lt_irrefl _)
      have hadd : heapAfterLateAdd h client ([] ++ (event, r) :: post) event cb =
          (mergedHeap h client ([] ++ (event, r) :: post)).write r
            ((mergedHeap h client ([] ++ (event, r) :: post)).read r ++ [cb]) := by
        unfold heapAfterLateAdd addListener
        rw [hgetR]
      unfold effectiveListeners
      rw [hbind, hadd]
      simp only []
      rw [ListHeap.read_write_ne _ r _ _ hne]
    · intro hnone
      have hstep : includeStep h client event r =
          (h, pyDictSet client event r) := by
        unfold includeStep
        rw [hnone]
      have hMH : mergedHeap h client ([] ++ (event, r) :: post) =
          (includeRouter h (pyDictSet client event r) post).1 := by
        unfold mergedHeap
        show (includeRouter (includeStep h client event r).1
          (includeStep h client event r).2 post).1 = _
        rw [hstep]
      have hMC : mergedClient h client ([] ++ (event, r) :: post) =
          (includeRouter h (pyDictSet client event r) post).2 := by
        unfold mergedClient
        show (includeRouter (includeStep h client event r).1
          (includeStep h client event r).2 post).2 = _
        rw [hstep]
      have hbind : pyDictGet? (mergedClient h client ([] ++ (event, r) :: post))
          event = some r := by
        rw [hMC, includeRouter_get_absent post _ _ event hpost,
          pyDictGet?_pyDictSet_self]
      refine ⟨hbind, ?_⟩
      have hr1 : r < (mergedHeap h client ([] ++ (event, r) :: post)).cells.length := by
        rw [hMH]
        exact Nat.lt_of_lt_of_le hr (includeRouter_length post h _)
      have hadd : heapAfterLateAdd h client ([] ++ (event, r) :: post) event cb =
          (mergedHeap h client ([] ++ (event, r) :: post)).write r
            ((mergedHeap h client ([] ++ (event, r) :: post)).read r ++ [cb]) := by
        unfold heapAfterLateAdd addListener
        rw [hgetR]
      unfold effectiveListeners
      rw [hbind, hadd]
      simp only []
      rw [ListHeap.read_write_self _ r _ hr1]
  | cons p pre' ih =>
    obtain ⟨k, r'⟩ := p
    have hk : k ≠ event := hpre (k, r') (List.mem_cons_self _ _)
    have hpre' : ∀ q ∈ pre', q.1 ≠ event :=
      fun q hq => hpre q (List.mem_cons_of_mem _ hq)
    have hr' : r < (includeStep h client k r').1.cells.length :=
      Nat.lt_of_lt_of_le hr (includeStep_length h client k r')
    have hget : pyDictGet? (includeStep h client k r').2 event =
        pyDictGet? client event :=
      includeStep_get_ne h client k event r' (fun he => hk he.symm)
    have ihh := ih (includeStep h client k r').1 (includeStep h client k r').2
      hr' hpre'
    have hHLA : heapAfterLateAdd h client
        (((k, r') :: pre') ++ (event, r) :: post) event cb =
        heapAfterLateAdd (includeStep h client k r').1
          (includeStep h client k r').2 (pre' ++ (event, r) :: post) event cb := by
      unfold heapAfterLateAdd
      show (addListener (mergedHeap h client (((k, r') :: pre') ++ (event, r) :: post))
        ((k, r') :: (pre' ++ (event, r) :: post)) event cb).1 = _
      rw [addListener_heap_cons_ne _ _ k r' event cb hk]
      rfl
    have hMH : mergedHeap h client (((k, r') :: pre') ++ (event, r) :: post) =
        mergedHeap (includeStep h client k r').1 (includeStep h client k r').2
          (pre' ++ (event, r) :: post) := rfl
    have hMC : mergedClient h client (((k, r') :: pre') ++ (event, r) :: post) =
        mergedClient (includeStep h client k r').1 (includeStep h client k r').2
          (pre' ++ (event, r) :: post) := rfl
    rw [hHLA, hMH, hMC]
    exact ⟨fun cr hcr => ihh.1 cr (hget.trans hcr),
      fun hnone => ihh.2 (hget.trans hnone)⟩

/-- C7 (witness): the amended theorem's alias branch at the counterexample's
configuration: one heap cell `[10]`, an empty client, the router binding
`a ↦` that cell. -/
theorem C7_router_inclusion_alias_witness :
    pyDictGet? (mergedClient ⟨[[10]]⟩ [] [("a", 0)]) "a" = some 0
    ∧ effectiveListeners (heapAfterLateAdd ⟨[[10]]⟩ [] [("a", 0)] "a" 20)
        (mergedClient ⟨[[10]]⟩ [] [("a", 0)]) "a" =
      effectiveListeners (mergedHeap ⟨[[10]]⟩ [] [("a", 0)])
        (mergedClient ⟨[[10]]⟩ [] [("a", 0)]) "a" ++ [20] := by
  have h := (C7_router_inclusion_alias ⟨[[10]]⟩ [] [] [] "a" 0 20
      (by decide)
      (fun p hp => absurd hp (List.not_mem_nil p))
      (fun p hp => absurd hp (List.not_mem_nil p))).2 rfl
  exact h

/-! ## Claim C9: guaranteed unsubscribe on every exit path -/

/-- C9: whenever the listen loop terminates — the stream ending normally or
any exception escaping the dispatch body, even mid-iteration — the trace ends
with the `finally` block: one `UNLISTEN` command per subscribed channel,
a commit, and the cursor release; the loop body itself issues no
subscription commands; and afterwards the set of subscribed channels is
empty. -/
theorem C9_guaranteed_unsubscribe (listeners : List (String × List Listener))
    (pipes : List PipeListener) (stream : List (String × String)) :
    subscribedAfter ((listenRun listeners pipes stream).1) [] = []
    ∧ ∃ body, (listenRun listeners pipes stream).1 =
        ((listeners.map fun ev => LEvent.listenCmd ev.1) ++ [LEvent.commitTx])
          ++ body
          ++ ((listeners.map fun ev => LEvent.unlistenCmd ev.1)
            ++ [LEvent.commitTx, LEvent.closeCursor])
        ∧ ∀ e ∈ body, isSubCmd e = false := by
  have hA : (listeners.map fun ev => LEvent.listenCmd ev.1) =
      (listeners.map Prod.fst).map LEvent.listenCmd := by
    simp [List.map_map, Function.comp]
  have hC : (listeners.map fun ev => LEvent.unlistenCmd ev.1) =
      (listeners.map Prod.fst).map LEvent.unlistenCmd := by
    simp [List.map_map, Function.comp]
  have hbody : ∀ e ∈ (runLoop listeners pipes stream).1, isSubCmd e = false :=
    isSubCmd_runLoop listeners pipes stream
  constructor
  · have htr : (listenRun listeners pipes stream).1 =
        ((listeners.map fun ev => LEvent.listenCmd ev.1) ++ [LEvent.commitTx])
          ++ (runLoop listeners pipes stream).1
          ++ ((listeners.map fun ev => LEvent.unlistenCmd ev.1)
            ++ [LEvent.commitTx, LEvent.closeCursor]) := by
      unfold listenRun
      simp [List.append_assoc]
    have e2 : subscribedAfter ((runLoop listeners pipes stream).1)
        (subscribedAfter ((listeners.map Prod.fst).map LEvent.listenCmd) []) =
        subscribedAfter ((listeners.map Prod.fst).map LEvent.listenCmd) [] :=
      subscribedAfter_no_sub _ _ hbody
    have hfinal : subscribedAfter
        ((listeners.map Prod.fst).map LEvent.unlistenCmd)
        (subscribedAfter ((listeners.map Prod.fst).map LEvent.listenCmd) []) =
        [] := by
      rw [List.eq_nil_iff_forall_not_mem]
      intro x hx
      rw [mem_subscribedAfter_unlisten] at hx
      rcases hx with ⟨hx1, hx2⟩
      rcases mem_subscribedAfter_listen (listeners.map Prod.fst) [] x hx1 with
        h | h
      · exact absurd h (List.not_mem_nil x)
      · exact hx2 h
    rw [htr, hA, hC]
    simp only [subscribedAfter_append]
    have hcommit : subscribedAfter [LEvent.commitTx]
        (subscribedAfter ((listeners.map Prod.fst).map LEvent.listenCmd) []) =
        subscribedAfter ((listeners.map Prod.fst).map LEvent.listenCmd) [] := rfl
    rw [hcommit, e2, hfinal]
    rfl
  · exact ⟨(runLoop listeners pipes stream).1,
      by unfold listenRun; simp [List.append_assoc], hbody⟩

/-! ## Claim C10: the `SimpleSQL.execute` wrapper -/

/-- C10: the client-level `execute` wrapper can never return a query result:
for every query (parameters, text, driver behaviour) and every argument map,
`SimpleSQL.execute` passes the client instance as an extra positional
argument to `Query.execute`, which accepts only one, so the call raises
`TypeError` and performs no database action. -/
theorem C10_execute_wrapper_arity (parameters : List String) (text : String)
    (outcome : QueryOutcome) (data : List (String × PyVal)) :
    simpleSQLExecute parameters text outcome data =
      ([], Except.error PyException.typeError) :=
  rfl

end SimpleSQL
